import Mathlib

/-!
Shallow embedding of the GGM octopus opening implementation (`src/main.py`).

Modelling conventions:
* Node values (16-byte strings produced by SHAKE-256) are modelled by an
  abstract type `α`; the PRG `prg_split_shake_16 : bytes → bytes × bytes` is
  modelled by an abstract deterministic function `split : α → α × α`, the only
  property of the PRG the tree algebra uses.  Witness instantiations use
  `α := Nat` with the injective `natSplit`.
* Python `int.bit_length` and the bit-clearing `while` loop of
  `find_abandon_index` are modelled with an explicit fuel argument (the fuel is
  an upper bound on the number of iterations, proved sufficient below), so that
  every definition is structurally recursive and kernel-computable.
* Python's unset marker `b''` in the recovered-leaf array is modelled by
  `Option α` with `none` as the marker (an empty string is never a node value).
* A raised `IndexError` is modelled by `Except.error`; the exact message text
  is irrelevant to the claims.
* Python list indexing `l[k]` (always in range at the use sites, guarded by
  the code) is modelled by `List.getD` with a default.
* `sorted(set(l))` is modelled by `sortDedup` (insertion into a sorted
  duplicate-free list), which produces exactly the sorted list of the distinct
  members of `l`.
-/

namespace GGM

/-- Fueled helper for Python `int.bit_length` (enough fuel: `n` itself). -/
def bit_length_fuel : Nat → Nat → Nat
  | 0, _ => 0
  | fuel + 1, n => if n = 0 then 0 else bit_length_fuel fuel (n / 2) + 1

/-- Python `n.bit_length()` for a natural number `n`. -/
def bit_length (n : Nat) : Nat := bit_length_fuel n n

/-- The height `H = (M - 1).bit_length() + (N - 1).bit_length()` computed by
`ggm_generate`, `_layer_sizes_from_MN` and `find_abandon_index`. -/
def heightMN (M N : Nat) : Nat := bit_length (M - 1) + bit_length (N - 1)

/-- The `while diff:` loop of `find_abandon_index`: repeatedly emit
`H - (diff.bit_length() - 1)` and clear the most significant bit of `diff`.
Fueled (the loop runs at most `popcount diff ≤ diff` times). -/
def find_abandon_loop (H : Nat) : Nat → Nat → List Nat
  | 0, _ => []
  | fuel + 1, diff =>
    if diff = 0 then []
    else (H - (bit_length diff - 1)) ::
      find_abandon_loop H fuel (diff ^^^ (1 <<< (bit_length diff - 1)))

/-- Python `find_abandon_index(M, N)` from `src/main.py`: the layers (1-based) at
which the last node is dropped from the GGM tree. -/
def find_abandon_index (M N : Nat) : List Nat :=
  find_abandon_loop (heightMN M N)
    ((1 <<< heightMN M N) - M * N) ((1 <<< heightMN M N) - M * N)

/-- Fueled population count (number of set bits), used to state claim C5. -/
def popcount_fuel : Nat → Nat → Nat
  | 0, _ => 0
  | fuel + 1, n => if n = 0 then 0 else popcount_fuel fuel (n / 2) + n % 2

/-- Number of set bits of a natural number. -/
def popcount (n : Nat) : Nat := popcount_fuel n n

/-- The size of layer `d` as computed by the loop of `_layer_sizes_from_MN`:
start at 1 and double, minus one on abandon layers (guarded by `s > 0`). -/
def layer_size (abandon : List Nat) : Nat → Nat
  | 0 => 1
  | d + 1 =>
    let s := layer_size abandon d
    if (d + 1) ∈ abandon ∧ 0 < s then 2 * s - 1 else 2 * s

/-- Python `_layer_sizes_from_MN(M, N)` from `src/main.py`. -/
def layer_sizes_from_MN (M N : Nat) : List Nat :=
  (List.range (heightMN M N + 1)).map (layer_size (find_abandon_index M N))

/-- One layer expansion: for every node in order, append its left then right
child (the inner `for node in current` loops of `ggm_generate` and
`_expand_to_leaves`). -/
def childExpand (split : α → α × α) : List α → List α
  | [] => []
  | node :: rest => (split node).1 :: (split node).2 :: childExpand split rest

/-- Layer `d` of the tree built by `ggm_generate`: layer 0 is `[seed]`, and
layer `d+1` expands layer `d`, dropping the last node on abandon layers. -/
def ggm_layer (split : α → α × α) (abandon : List Nat) (seed : α) : Nat → List α
  | 0 => [seed]
  | d + 1 =>
    let next_level := childExpand split (ggm_layer split abandon seed d)
    if (d + 1) ∈ abandon then next_level.dropLast else next_level

/-- Python `ggm_generate(seed, M, N)` from `src/main.py`: the list of all layers
`0 .. H` (the Python loop appends layer `d+1` computed from layer `d`). -/
def ggm_generate (split : α → α × α) (seed : α) (M N : Nat) : List (List α) :=
  (List.range (heightMN M N + 1)).map
    (ggm_layer split (find_abandon_index M N) seed)

/-- Insert into a sorted duplicate-free list of naturals. -/
def insertSortedNat (x : Nat) : List Nat → List Nat
  | [] => [x]
  | y :: ys =>
    if x < y then x :: y :: ys
    else if x = y then y :: ys
    else y :: insertSortedNat x ys

/-- Python `sorted(set(l))`. -/
def sortDedup (l : List Nat) : List Nat := l.foldr insertSortedNat []

/-- Lexicographic comparison on pairs (Python tuple `<`). -/
def pairLtb (p q : Nat × Nat) : Bool :=
  p.1 < q.1 || (p.1 = q.1 && p.2 < q.2)

/-- Insert into a lexicographically sorted duplicate-free list of pairs. -/
def insertSortedPair (x : Nat × Nat) : List (Nat × Nat) → List (Nat × Nat)
  | [] => [x]
  | y :: ys =>
    if x = y then y :: ys
    else if pairLtb x y then x :: y :: ys
    else y :: insertSortedPair x ys

/-- Python `sorted(set(pairs))` for the sibling pairs. -/
def sortDedupPairs (l : List (Nat × Nat)) : List (Nat × Nat) :=
  l.foldr insertSortedPair []

/-- All components of a list of pairs, in order
(Python `{x for p in B_pruned for x in p}` before sorting). -/
def pairsFlat : List (Nat × Nat) → List Nat
  | [] => []
  | p :: rest => p.1 :: p.2 :: pairsFlat rest

/-- A proof step: the Python dict `{"layer": L, "indices": ..., "values": ...}`. -/
structure Step (α : Type) where
  layer : Nat
  indices : List Nat
  values : List α

/-- The `for L in range(H, 0, -1)` loop of `ggm_open`, with the current
challenge-derived `target` as state.  The first argument is the layer `L`
still to be processed (counting down to 1). -/
def ggm_open_loop [Inhabited α] (layers : List (List α)) :
    Nat → List Nat → List (Step α)
  | 0, _ => []
  | L + 1, target =>
    if target = [] then
      -- Nothing more to prove; still record an empty step for completeness
      ⟨L + 1, [], []⟩ :: ggm_open_loop layers L []
    else
      let pairs := target.map (fun i => (Nat.min i (i ^^^ 1), Nat.max i (i ^^^ 1)))
      let B_pruned := sortDedupPairs pairs
      let need0 := (sortDedup (pairsFlat B_pruned)).filter (fun x => decide (x ∉ target))
      let layer_size := (layers.getD (L + 1) []).length
      let need := need0.filter (fun i => decide (i < layer_size))
      let parents := sortDedup (B_pruned.map (fun p => p.1 / 2))
      ⟨L + 1, need, need.map (fun k => (layers.getD (L + 1) []).getD k default)⟩ ::
        ggm_open_loop layers L parents

/-- Python `ggm_open(layers, A)` from `src/main.py`. -/
def ggm_open [Inhabited α] (layers : List (List α)) (A : List Nat) : List (Step α) :=
  ggm_open_loop layers (layers.length - 1) (sortDedup A)

/-- The `for d in range(start_layer, H)` loop of `_expand_to_leaves`, with
fuel `H - start_layer`; state `(d, lo, hi, level_nodes)`. -/
def expand_to_leaves_loop (split : α → α × α) (sizes : List Nat) :
    Nat → Nat → Nat → Nat → List α → Nat × List α
  | 0, _, lo, _, level_nodes => (lo, level_nodes)
  | fuel + 1, d, lo, hi, level_nodes =>
    let nxt := childExpand split level_nodes
    let lo2 := 2 * lo
    let hi2 := 2 * hi + 1
    let last_global := sizes.getD (d + 1) 0
    if lo2 ≤ last_global ∧ last_global ≤ hi2 then
      expand_to_leaves_loop split sizes fuel (d + 1) lo2 (hi2 - 1) nxt.dropLast
    else
      expand_to_leaves_loop split sizes fuel (d + 1) lo2 hi2 nxt

/-- Python `_expand_to_leaves(node, start_layer, node_index, H, sizes)` from
`src/main.py`: expand a subtree down to the leaf layer, respecting pruning;
returns the leftmost global leaf index and the leaf values. -/
def expand_to_leaves (split : α → α × α) (node : α)
    (start_layer node_index H : Nat) (sizes : List Nat) : Nat × List α :=
  expand_to_leaves_loop split sizes (H - start_layer) start_layer
    node_index node_index [node]

/-- The `for off, leaf in enumerate(leaves)` write-back loop of `ggm_verify`:
write each leaf at its global index, raising on an out-of-range index. -/
def write_leaves : Nat → Nat → List α → List (Option α) →
    Except String (List (Option α))
  | _, _, [], r => .ok r
  | total, gi, leaf :: rest, r =>
    if gi < total then write_leaves total (gi + 1) rest (r.set gi (some leaf))
    else .error "leaf index out of range"

/-- The `for i, node in zip(idxs, vals)` loop of `ggm_verify`. -/
def verify_pairs (split : α → α × α) (sizes : List Nat) (H total L : Nat) :
    List (Nat × α) → List (Option α) → Except String (List (Option α))
  | [], r => .ok r
  | iv :: rest, r =>
    let bl := expand_to_leaves split iv.2 L iv.1 H sizes
    match write_leaves total bl.1 bl.2 r with
    | .error e => .error e
    | .ok r1 => verify_pairs split sizes H total L rest r1

/-- The `for level in proof` loop of `ggm_verify`. -/
def verify_steps (split : α → α × α) (sizes : List Nat) (H total : Nat) :
    List (Step α) → List (Option α) → Except String (List (Option α))
  | [], r => .ok r
  | st :: rest, r =>
    match verify_pairs split sizes H total st.layer (st.indices.zip st.values) r with
    | .error e => .error e
    | .ok r1 => verify_steps split sizes H total rest r1

/-- Python `ggm_verify(proof, M, N)` from `src/main.py`. -/
def ggm_verify (split : α → α × α) (proof : List (Step α)) (M N : Nat) :
    Except String (List (Option α)) :=
  let sizes := layer_sizes_from_MN M N
  let total := sizes.getLastD 0
  verify_steps split sizes (sizes.length - 1) total proof
    (List.replicate total none)

/-- Concrete injective PRG stand-in on `Nat` (heap numbering), used to
evaluate the development on concrete inputs. -/
def natSplit (n : Nat) : Nat × Nat := (2 * n + 1, 2 * n + 2)

/-- The challenge-derived target set at layer `L` (sorted, duplicate-free):
the ancestors at layer `L` of the challenged leaf indices.  The opener's
`target` variable equals this at every iteration (proved below). -/
def targetAt (A : List Nat) (H L : Nat) : List Nat :=
  sortDedup (A.map (fun a => a / 2 ^ (H - L)))

/-- The step `ggm_open` emits at layer `L` when the target set is nonempty
(the body of the `else` branch of the loop, with `target = targetAt A H L`). -/
def openStepAt [Inhabited α] (layers : List (List α)) (A : List Nat) (H L : Nat) :
    Step α :=
  let target := targetAt A H L
  let pairs := target.map (fun i => (Nat.min i (i ^^^ 1), Nat.max i (i ^^^ 1)))
  let B_pruned := sortDedupPairs pairs
  let need0 := (sortDedup (pairsFlat B_pruned)).filter (fun x => decide (x ∉ target))
  let layer_size := (layers.getD L []).length
  let need := need0.filter (fun i => decide (i < layer_size))
  ⟨L, need, need.map (fun k => (layers.getD L []).getD k default)⟩

/-- Pure effect of a successful `write_leaves` call (no bounds check):
overwrite `r` starting at `gi` with `some` of each leaf. -/
def writeList (r : List (Option α)) : Nat → List α → List (Option α)
  | _, [] => r
  | gi, leaf :: rest => writeList (r.set gi (some leaf)) (gi + 1) rest

/-! ### Sorted duplicate-free lists -/

theorem mem_insertSortedNat {x a : Nat} {l : List Nat} :
    a ∈ insertSortedNat x l ↔ a = x ∨ a ∈ l := by
  induction l with
  | nil => simp [insertSortedNat]
  | cons y ys ih =>
    by_cases h1 : x < y
    · simp [insertSortedNat, h1]
    · by_cases h2 : x = y
      · subst h2
        have heq : insertSortedNat x (x :: ys) = x :: ys := by
          simp [insertSortedNat, h1]
        rw [heq, List.mem_cons]
        tauto
      · simp only [insertSortedNat, if_neg h1, if_neg h2, List.mem_cons, ih]
        tauto

theorem pairwise_insertSortedNat {x : Nat} {l : List Nat}
    (h : l.Pairwise (· < ·)) : (insertSortedNat x l).Pairwise (· < ·) := by
  induction l with
  | nil => simp [insertSortedNat]
  | cons y ys ih =>
    rcases List.pairwise_cons.mp h with ⟨hy, hys⟩
    by_cases h1 : x < y
    · simp only [insertSortedNat, if_pos h1]
      refine List.pairwise_cons.mpr ⟨?_, h⟩
      intro b hb
      rcases List.mem_cons.mp hb with rfl | hb
      · exact h1
      · exact Nat.lt_trans h1 (hy b hb)
    · by_cases h2 : x = y
      · have heq : insertSortedNat x (y :: ys) = y :: ys := by
          simp [insertSortedNat, h1, h2]
        rw [heq]
        exact h
      · simp only [insertSortedNat, if_neg h1, if_neg h2]
        refine List.pairwise_cons.mpr ⟨?_, ih hys⟩
        intro b hb
        rcases mem_insertSortedNat.mp hb with rfl | hb
        · omega
        · exact hy b hb

theorem sortDedup_pairwise (l : List Nat) : (sortDedup l).Pairwise (· < ·) := by
  induction l with
  | nil => simp [sortDedup]
  | cons a l ih => exact pairwise_insertSortedNat ih

theorem mem_sortDedup {a : Nat} {l : List Nat} : a ∈ sortDedup l ↔ a ∈ l := by
  induction l with
  | nil => simp [sortDedup]
  | cons b l ih =>
    show a ∈ insertSortedNat b (sortDedup l) ↔ _
    rw [mem_insertSortedNat, ih, List.mem_cons]

theorem sorted_eq_of_mem_iff :
    ∀ {l₁ l₂ : List Nat}, l₁.Pairwise (· < ·) → l₂.Pairwise (· < ·) →
      (∀ x, x ∈ l₁ ↔ x ∈ l₂) → l₁ = l₂ := by
  intro l₁
  induction l₁ with
  | nil =>
    intro l₂ _ _ hmem
    cases l₂ with
    | nil => rfl
    | cons b t => exact absurd ((hmem b).mpr (List.mem_cons_self b t)) (by simp)
  | cons a t₁ ih =>
    intro l₂ h₁ h₂ hmem
    cases l₂ with
    | nil => exact absurd ((hmem a).mp (List.mem_cons_self a t₁)) (by simp)
    | cons b t₂ =>
      rcases List.pairwise_cons.mp h₁ with ⟨ha, ht₁⟩
      rcases List.pairwise_cons.mp h₂ with ⟨hb, ht₂⟩
      have hab : a = b := by
        rcases List.mem_cons.mp ((hmem a).mp (List.mem_cons_self a t₁)) with h | h
        · exact h
        · have hba := hb a h
          rcases List.mem_cons.mp ((hmem b).mpr (List.mem_cons_self b t₂)) with h' | h'
          · omega
          · have := ha b h'
            omega
      subst hab
      have htails : ∀ x, x ∈ t₁ ↔ x ∈ t₂ := by
        intro x
        constructor
        · intro hx
          have hax := ha x hx
          rcases List.mem_cons.mp ((hmem x).mp (List.mem_cons.mpr (Or.inr hx))) with h | h
          · omega
          · exact h
        · intro hx
          have hax := hb x hx
          rcases List.mem_cons.mp ((hmem x).mpr (List.mem_cons.mpr (Or.inr hx))) with h | h
          · omega
          · exact h
      rw [ih ht₁ ht₂ htails]

theorem sortDedup_eq_of_mem_iff {l : List Nat} {m : List Nat}
    (hm : m.Pairwise (· < ·)) (h : ∀ x, x ∈ l ↔ x ∈ m) : sortDedup l = m :=
  sorted_eq_of_mem_iff (sortDedup_pairwise l) hm
    (fun x => (mem_sortDedup).trans (h x))

theorem mem_insertSortedPair {x a : Nat × Nat} {l : List (Nat × Nat)} :
    a ∈ insertSortedPair x l ↔ a = x ∨ a ∈ l := by
  induction l with
  | nil => simp [insertSortedPair]
  | cons y ys ih =>
    by_cases h1 : x = y
    · have heq : insertSortedPair x (y :: ys) = y :: ys := by
        simp [insertSortedPair, h1]
      rw [heq, List.mem_cons]
      subst h1
      tauto
    · by_cases h2 : pairLtb x y = true
      · simp [insertSortedPair, h1, h2]
      · simp only [insertSortedPair, if_neg h1, if_neg h2, List.mem_cons, ih]
        tauto

theorem mem_sortDedupPairs {a : Nat × Nat} {l : List (Nat × Nat)} :
    a ∈ sortDedupPairs l ↔ a ∈ l := by
  induction l with
  | nil => simp [sortDedupPairs]
  | cons b l ih =>
    show a ∈ insertSortedPair b (sortDedupPairs l) ↔ _
    rw [mem_insertSortedPair, ih, List.mem_cons]

/-! ### bit_length -/

theorem bit_length_fuel_zero (fuel : Nat) : bit_length_fuel fuel 0 = 0 := by
  cases fuel <;> simp [bit_length_fuel]

theorem bit_length_fuel_eq :
    ∀ fuel₁ fuel₂ n, n ≤ fuel₁ → n ≤ fuel₂ →
      bit_length_fuel fuel₁ n = bit_length_fuel fuel₂ n := by
  intro fuel₁
  induction fuel₁ with
  | zero =>
    intro fuel₂ n h1 _
    interval_cases n
    rw [bit_length_fuel_zero, bit_length_fuel_zero]
  | succ f ih =>
    intro fuel₂ n h1 h2
    cases fuel₂ with
    | zero =>
      interval_cases n
      rw [bit_length_fuel_zero, bit_length_fuel_zero]
    | succ g =>
      by_cases hn : n = 0
      · subst hn; rw [bit_length_fuel_zero, bit_length_fuel_zero]
      · have hdiv : n / 2 < n := Nat.div_lt_self (by omega) (by omega)
        simp only [bit_length_fuel, if_neg hn]
        rw [ih g (n / 2) (by omega) (by omega)]

theorem bit_length_rec (n : Nat) :
    bit_length n = if n = 0 then 0 else bit_length (n / 2) + 1 := by
  by_cases hn : n = 0
  · simp [hn, bit_length, bit_length_fuel_zero]
  · rw [if_neg hn]
    have hdiv : n / 2 < n := Nat.div_lt_self (by omega) (by omega)
    unfold bit_length
    cases n with
    | zero => exact absurd rfl hn
    | succ m =>
      simp only [bit_length_fuel, if_neg hn]
      rw [bit_length_fuel_eq m ((m + 1) / 2) ((m + 1) / 2) (by omega) (by omega)]

theorem bit_length_zero : bit_length 0 = 0 := rfl

theorem bit_length_pos {n : Nat} (h : n ≠ 0) : 1 ≤ bit_length n := by
  rw [bit_length_rec, if_neg h]
  omega

theorem lt_two_pow_bit_length (n : Nat) : n < 2 ^ bit_length n := by
  induction n using Nat.strong_induction_on with
  | _ n ih =>
    rw [bit_length_rec]
    by_cases hn : n = 0
    · simp [hn]
    · rw [if_neg hn]
      have hdiv : n / 2 < n := Nat.div_lt_self (by omega) (by omega)
      have h2 := ih (n / 2) hdiv
      rw [Nat.pow_succ]
      omega

theorem two_pow_le_bit_length {n : Nat} (h : n ≠ 0) :
    2 ^ (bit_length n - 1) ≤ n := by
  induction n using Nat.strong_induction_on with
  | _ n ih =>
    rw [bit_length_rec, if_neg h]
    by_cases hd : n / 2 = 0
    · simp [hd, bit_length_zero]
      omega
    · have hdiv : n / 2 < n := Nat.div_lt_self (by omega) (by omega)
      have h2 := ih (n / 2) hdiv hd
      have h3 := bit_length_pos hd
      have hpow : 2 ^ bit_length (n / 2) = 2 * 2 ^ (bit_length (n / 2) - 1) := by
        rw [← Nat.pow_succ']
        congr 1
        omega
      simp only [Nat.add_sub_cancel]
      omega

theorem bit_length_le {n k : Nat} (h : n < 2 ^ k) : bit_length n ≤ k := by
  by_cases hn : n = 0
  · subst hn; rw [bit_length_zero]; omega
  · by_contra hcon
    have h1 : k ≤ bit_length n - 1 := by omega
    have h2 : 2 ^ k ≤ 2 ^ (bit_length n - 1) := Nat.pow_le_pow_right (by omega) h1
    have h3 := two_pow_le_bit_length hn
    omega

theorem bit_length_eq_of {n k : Nat} (hk : 1 ≤ k) (h1 : 2 ^ (k - 1) ≤ n)
    (h2 : n < 2 ^ k) : bit_length n = k := by
  have hn : n ≠ 0 := by
    have : 1 ≤ 2 ^ (k - 1) := Nat.one_le_two_pow
    omega
  have hle : bit_length n ≤ k := bit_length_le h2
  have hge : k ≤ bit_length n := by
    by_contra hcon
    have hb : bit_length n ≤ k - 1 := by omega
    have := Nat.pow_le_pow_right (show 1 ≤ 2 by omega) hb
    have := lt_two_pow_bit_length n
    omega
  omega

/-! ### popcount -/

theorem popcount_fuel_zero (fuel : Nat) : popcount_fuel fuel 0 = 0 := by
  cases fuel <;> simp [popcount_fuel]

theorem popcount_fuel_eq :
    ∀ fuel₁ fuel₂ n, n ≤ fuel₁ → n ≤ fuel₂ →
      popcount_fuel fuel₁ n = popcount_fuel fuel₂ n := by
  intro fuel₁
  induction fuel₁ with
  | zero =>
    intro fuel₂ n h1 _
    interval_cases n
    rw [popcount_fuel_zero, popcount_fuel_zero]
  | succ f ih =>
    intro fuel₂ n h1 h2
    cases fuel₂ with
    | zero =>
      interval_cases n
      rw [popcount_fuel_zero, popcount_fuel_zero]
    | succ g =>
      by_cases hn : n = 0
      · subst hn; rw [popcount_fuel_zero, popcount_fuel_zero]
      · have hdiv : n / 2 < n := Nat.div_lt_self (by omega) (by omega)
        simp only [popcount_fuel, if_neg hn]
        rw [ih g (n / 2) (by omega) (by omega)]

theorem popcount_div2 (n : Nat) : popcount n = popcount (n / 2) + n % 2 := by
  by_cases hn : n = 0
  · simp [hn, popcount, popcount_fuel_zero]
  · have hdiv : n / 2 < n := Nat.div_lt_self (by omega) (by omega)
    unfold popcount
    cases n with
    | zero => exact absurd rfl hn
    | succ m =>
      simp only [popcount_fuel, if_neg hn]
      rw [popcount_fuel_eq m ((m + 1) / 2) ((m + 1) / 2) (by omega) (by omega)]

theorem popcount_zero : popcount 0 = 0 := rfl

theorem popcount_two_pow_add :
    ∀ i, ∀ {r : Nat}, r < 2 ^ i → popcount (2 ^ i + r) = popcount r + 1 := by
  intro i
  induction i with
  | zero =>
    intro r h
    interval_cases r
    rfl
  | succ i ih =>
    intro r h
    have h1 : 2 ^ (i + 1) = 2 * 2 ^ i := by rw [Nat.pow_succ]; ring
    have h2 : 0 < 2 ^ i := Nat.two_pow_pos i
    rw [popcount_div2 (2 ^ (i + 1) + r)]
    have hdiv : (2 ^ (i + 1) + r) / 2 = 2 ^ i + r / 2 := by omega
    have hmod : (2 ^ (i + 1) + r) % 2 = r % 2 := by omega
    rw [hdiv, hmod, ih (by omega), popcount_div2 r]
    omega

/-! ### Clearing the most significant bit -/

theorem two_pow_add_xor {i r : Nat} (h : r < 2 ^ i) : (2 ^ i + r) ^^^ 2 ^ i = r := by
  apply Nat.eq_of_testBit_eq
  intro j
  rw [Nat.testBit_xor]
  rcases Nat.lt_trichotomy j i with hj | hj | hj
  · rw [Nat.testBit_two_pow_add_gt hj, Nat.testBit_two_pow_of_ne (by omega)]
    simp
  · subst hj
    rw [Nat.testBit_two_pow_add_eq, Nat.testBit_two_pow_self,
      Nat.testBit_lt_two_pow h]
    simp
  · have hij : 2 ^ (i + 1) ≤ 2 ^ j := Nat.pow_le_pow_right (by omega) (by omega)
    have hpow : 2 ^ (i + 1) = 2 * 2 ^ i := by rw [Nat.pow_succ]; ring
    rw [Nat.testBit_lt_two_pow (x := 2 ^ i + r) (by omega),
      Nat.testBit_two_pow_of_ne (by omega),
      Nat.testBit_lt_two_pow (x := r) (by omega)]
    simp

theorem xor_shift_of_bounds {i d : Nat} (h1 : 2 ^ i ≤ d) (h2 : d < 2 ^ (i + 1)) :
    d ^^^ (1 <<< i) = d - 2 ^ i := by
  have hr : d - 2 ^ i < 2 ^ i := by
    rw [Nat.pow_succ] at h2
    omega
  have hsplit : d = 2 ^ i + (d - 2 ^ i) := by omega
  rw [Nat.shiftLeft_eq, one_mul]
  conv_lhs => rw [hsplit]
  exact two_pow_add_xor hr

theorem testBit_of_bounds {i d : Nat} (h1 : 2 ^ i ≤ d) (h2 : d < 2 ^ (i + 1)) :
    d.testBit i = true := by
  have hr : d - 2 ^ i < 2 ^ i := by
    rw [Nat.pow_succ] at h2
    omega
  have hsplit : d = 2 ^ i + (d - 2 ^ i) := by omega
  conv_lhs => rw [hsplit]
  rw [Nat.testBit_two_pow_add_eq, Nat.testBit_lt_two_pow hr]
  rfl

theorem xor_msb_eq_sub {d : Nat} (hd : d ≠ 0) :
    d ^^^ (1 <<< (bit_length d - 1)) = d - 2 ^ (bit_length d - 1) := by
  have hpos := bit_length_pos hd
  have hle := two_pow_le_bit_length hd
  have hlt : d < 2 ^ (bit_length d - 1 + 1) := by
    have h := lt_two_pow_bit_length d
    have heq : bit_length d - 1 + 1 = bit_length d := by omega
    rw [heq]
    exact h
  exact xor_shift_of_bounds hle hlt

theorem testBit_msb {d : Nat} (hd : d ≠ 0) :
    d.testBit (bit_length d - 1) = true := by
  have hpos := bit_length_pos hd
  have hle := two_pow_le_bit_length hd
  have hlt : d < 2 ^ (bit_length d - 1 + 1) := by
    have h := lt_two_pow_bit_length d
    have heq : bit_length d - 1 + 1 = bit_length d := by omega
    rw [heq]
    exact h
  exact testBit_of_bounds hle hlt

/-! ### find_abandon_loop characterization -/

theorem find_abandon_loop_fuel_eq :
    ∀ fuel₁ fuel₂ H diff, diff ≤ fuel₁ → diff ≤ fuel₂ →
      find_abandon_loop H fuel₁ diff = find_abandon_loop H fuel₂ diff := by
  intro fuel₁
  induction fuel₁ with
  | zero =>
    intro fuel₂ H diff h1 _
    interval_cases diff
    cases fuel₂ <;> simp [find_abandon_loop]
  | succ f ih =>
    intro fuel₂ H diff h1 h2
    cases fuel₂ with
    | zero =>
      interval_cases diff
      simp [find_abandon_loop]
    | succ g =>
      by_cases hd : diff = 0
      · subst hd; simp [find_abandon_loop]
      · simp only [find_abandon_loop, if_neg hd]
        rw [xor_msb_eq_sub hd]
        have hpow : 0 < 2 ^ (bit_length diff - 1) := Nat.two_pow_pos _
        rw [ih g H (diff - 2 ^ (bit_length diff - 1)) (by omega) (by omega)]

theorem find_abandon_loop_rec {H diff : Nat} (hd : diff ≠ 0) :
    find_abandon_loop H diff diff =
      (H - (bit_length diff - 1)) ::
        find_abandon_loop H (diff - 2 ^ (bit_length diff - 1))
          (diff - 2 ^ (bit_length diff - 1)) := by
  cases diff with
  | zero => exact absurd rfl hd
  | succ m =>
    simp only [find_abandon_loop, if_neg hd]
    rw [xor_msb_eq_sub hd]
    have hpow : 0 < 2 ^ (bit_length (m + 1) - 1) := Nat.two_pow_pos _
    rw [find_abandon_loop_fuel_eq m (m + 1 - 2 ^ (bit_length (m + 1) - 1)) H
      (m + 1 - 2 ^ (bit_length (m + 1) - 1)) (by omega) (by omega)]

theorem find_abandon_loop_mem {H : Nat} :
    ∀ diff, diff < 2 ^ H → ∀ a,
      (a ∈ find_abandon_loop H diff diff ↔
        1 ≤ a ∧ a ≤ H ∧ diff.testBit (H - a) = true) := by
  intro diff
  induction diff using Nat.strong_induction_on with
  | _ diff ih =>
    intro hlt a
    by_cases hd : diff = 0
    · subst hd
      simp [find_abandon_loop, Nat.zero_testBit]
    · rw [find_abandon_loop_rec hd, List.mem_cons]
      have hipos := bit_length_pos hd
      have hle := two_pow_le_bit_length hd
      have hltd : diff < 2 ^ (bit_length diff - 1 + 1) := by
        have h := lt_two_pow_bit_length diff
        have heq : bit_length diff - 1 + 1 = bit_length diff := by omega
        rw [heq]
        exact h
      have hblH : bit_length diff ≤ H := bit_length_le hlt
      have hpow : 0 < 2 ^ (bit_length diff - 1) := Nat.two_pow_pos _
      have hdd : diff - 2 ^ (bit_length diff - 1) < 2 ^ (bit_length diff - 1) := by
        rw [Nat.pow_succ] at hltd
        omega
      have hsplit : diff = 2 ^ (bit_length diff - 1) + (diff - 2 ^ (bit_length diff - 1)) := by
        omega
      have hrec := ih (diff - 2 ^ (bit_length diff - 1)) (by omega)
        (lt_of_lt_of_le hdd (Nat.pow_le_pow_right (by omega) (by omega))) a
      constructor
      · rintro (rfl | hmem)
        · refine ⟨by omega, by omega, ?_⟩
          have heq2 : H - (H - (bit_length diff - 1)) = bit_length diff - 1 := by
            omega
          rw [heq2]
          exact testBit_msb hd
        · rcases hrec.mp hmem with ⟨h1, h2, h3⟩
          refine ⟨h1, h2, ?_⟩
          have hja : H - a < bit_length diff - 1 := by
            by_contra hcon
            have hfalse : (diff - 2 ^ (bit_length diff - 1)).testBit (H - a) = false :=
              Nat.testBit_lt_two_pow
                (lt_of_lt_of_le hdd (Nat.pow_le_pow_right (by omega) (by omega)))
            rw [hfalse] at h3
            exact absurd h3 (by simp)
          conv_lhs => rw [hsplit]
          rw [Nat.testBit_two_pow_add_gt hja]
          exact h3
      · rintro ⟨h1, h2, h3⟩
        rcases Nat.lt_trichotomy (H - a) (bit_length diff - 1) with hji | hji | hji
        · right
          apply hrec.mpr
          refine ⟨h1, h2, ?_⟩
          rw [hsplit, Nat.testBit_two_pow_add_gt hji] at h3
          exact h3
        · left
          omega
        · exfalso
          have hfalse : diff.testBit (H - a) = false :=
            Nat.testBit_lt_two_pow
              (lt_of_lt_of_le hltd (Nat.pow_le_pow_right (by omega) (by omega)))
          rw [hfalse] at h3
          exact absurd h3 (by simp)

theorem find_abandon_loop_length {H : Nat} :
    ∀ diff, (find_abandon_loop H diff diff).length = popcount diff := by
  intro diff
  induction diff using Nat.strong_induction_on with
  | _ diff ih =>
    by_cases hd : diff = 0
    · subst hd
      simp [find_abandon_loop, popcount_zero]
    · rw [find_abandon_loop_rec hd]
      have hipos := bit_length_pos hd
      have hle := two_pow_le_bit_length hd
      have hpow : 0 < 2 ^ (bit_length diff - 1) := Nat.two_pow_pos _
      have hltd : diff < 2 ^ (bit_length diff - 1 + 1) := by
        have h := lt_two_pow_bit_length diff
        have heq : bit_length diff - 1 + 1 = bit_length diff := by omega
        rw [heq]
        exact h
      have hdd : diff - 2 ^ (bit_length diff - 1) < 2 ^ (bit_length diff - 1) := by
        rw [Nat.pow_succ] at hltd
        omega
      have hsplit : diff = 2 ^ (bit_length diff - 1) + (diff - 2 ^ (bit_length diff - 1)) := by
        omega
      rw [List.length_cons, ih (diff - 2 ^ (bit_length diff - 1)) (by omega)]
      conv_rhs => rw [hsplit]
      rw [popcount_two_pow_add _ hdd]

theorem find_abandon_loop_bound {H : Nat} :
    ∀ diff k, diff < 2 ^ H → diff < 2 ^ k →
      ∀ a ∈ find_abandon_loop H diff diff, H - k < a := by
  intro diff
  induction diff using Nat.strong_induction_on with
  | _ diff ih =>
    intro k hH hk a hmem
    by_cases hd : diff = 0
    · subst hd
      simp [find_abandon_loop] at hmem
    · rw [find_abandon_loop_rec hd, List.mem_cons] at hmem
      have hipos := bit_length_pos hd
      have hle := two_pow_le_bit_length hd
      have hpow : 0 < 2 ^ (bit_length diff - 1) := Nat.two_pow_pos _
      have hblH : bit_length diff ≤ H := bit_length_le hH
      have hblk : bit_length diff ≤ k := bit_length_le hk
      rcases hmem with rfl | hmem
      · omega
      · have hltd : diff < 2 ^ (bit_length diff - 1 + 1) := by
          have h := lt_two_pow_bit_length diff
          have heq : bit_length diff - 1 + 1 = bit_length diff := by omega
          rw [heq]
          exact h
        have hdd : diff - 2 ^ (bit_length diff - 1) < 2 ^ (bit_length diff - 1) := by
          rw [Nat.pow_succ] at hltd
          omega
        exact ih (diff - 2 ^ (bit_length diff - 1)) (by omega) k (by omega)
          (lt_of_lt_of_le hdd (Nat.pow_le_pow_right (by omega) (by omega))) a hmem

theorem find_abandon_loop_pairwise {H : Nat} :
    ∀ diff, diff < 2 ^ H → (find_abandon_loop H diff diff).Pairwise (· < ·) := by
  intro diff
  induction diff using Nat.strong_induction_on with
  | _ diff ih =>
    intro hH
    by_cases hd : diff = 0
    · subst hd
      simp [find_abandon_loop]
    · rw [find_abandon_loop_rec hd]
      have hipos := bit_length_pos hd
      have hle := two_pow_le_bit_length hd
      have hpow : 0 < 2 ^ (bit_length diff - 1) := Nat.two_pow_pos _
      have hltd : diff < 2 ^ (bit_length diff - 1 + 1) := by
        have h := lt_two_pow_bit_length diff
        have heq : bit_length diff - 1 + 1 = bit_length diff := by omega
        rw [heq]
        exact h
      have hdd : diff - 2 ^ (bit_length diff - 1) < 2 ^ (bit_length diff - 1) := by
        rw [Nat.pow_succ] at hltd
        omega
      have hsub : diff - 2 ^ (bit_length diff - 1) < 2 ^ H := by
        omega
      refine List.pairwise_cons.mpr ⟨?_, ih (diff - 2 ^ (bit_length diff - 1)) (by omega) hsub⟩
      intro b hb
      exact find_abandon_loop_bound (diff - 2 ^ (bit_length diff - 1))
        (bit_length diff - 1) hsub hdd b hb

/-! ### List lookup helpers -/

theorem map_range_getD {β : Type} (f : Nat → β) (n k : Nat) (dflt : β)
    (h : k < n) : ((List.range n).map f).getD k dflt = f k := by
  rw [List.getD_eq_getElem?_getD, List.getElem?_map, List.getElem?_range h]
  rfl

theorem map_range_getLastD {β : Type} (f : Nat → β) (n : Nat) (dflt : β) :
    ((List.range (n + 1)).map f).getLastD dflt = f n := by
  rw [List.range_succ, List.map_append]
  exact List.getLastD_concat _ _ _

theorem range'_getD (n s k : Nat) (h : k < n) :
    (List.range' s n).getD k 0 = s + k := by
  rw [List.getD_eq_getElem?_getD, List.getElem?_range' s 1 h]
  simp

/-! ### Layer sizes: closed form and positivity -/

theorem prod_le_two_pow_height {M N : Nat} (hM : 1 ≤ M) (hN : 1 ≤ N) :
    M * N ≤ 2 ^ heightMN M N := by
  have h1 : M ≤ 2 ^ bit_length (M - 1) := by
    have := lt_two_pow_bit_length (M - 1)
    omega
  have h2 : N ≤ 2 ^ bit_length (N - 1) := by
    have := lt_two_pow_bit_length (N - 1)
    omega
  calc M * N ≤ 2 ^ bit_length (M - 1) * 2 ^ bit_length (N - 1) :=
        Nat.mul_le_mul h1 h2
    _ = 2 ^ heightMN M N := by rw [heightMN, Nat.pow_add]

theorem find_abandon_index_eq (M N : Nat) :
    find_abandon_index M N =
      find_abandon_loop (heightMN M N) (2 ^ heightMN M N - M * N)
        (2 ^ heightMN M N - M * N) := by
  unfold find_abandon_index
  rw [Nat.shiftLeft_eq, one_mul]

theorem diff_lt_two_pow_height {M N : Nat} (hM : 1 ≤ M) (hN : 1 ≤ N) :
    2 ^ heightMN M N - M * N < 2 ^ heightMN M N := by
  have h1 : 0 < 2 ^ heightMN M N := Nat.two_pow_pos _
  have h2 : 1 ≤ M * N := Nat.mul_le_mul hM hN
  omega

theorem mem_find_abandon_index {M N a : Nat} (hM : 1 ≤ M) (hN : 1 ≤ N) :
    a ∈ find_abandon_index M N ↔
      1 ≤ a ∧ a ≤ heightMN M N ∧
        (2 ^ heightMN M N - M * N).testBit (heightMN M N - a) = true := by
  rw [find_abandon_index_eq]
  exact find_abandon_loop_mem _ (diff_lt_two_pow_height hM hN) a

theorem layer_size_closed {M N : Nat} (hM : 1 ≤ M) (hN : 1 ≤ N) :
    ∀ d, d ≤ heightMN M N →
      layer_size (find_abandon_index M N) d =
        2 ^ d - (2 ^ heightMN M N - M * N) / 2 ^ (heightMN M N - d) := by
  intro d
  induction d with
  | zero =>
    intro _
    have h0 : (2 ^ heightMN M N - M * N) / 2 ^ (heightMN M N - 0) = 0 := by
      apply Nat.div_eq_of_lt
      simpa using diff_lt_two_pow_height hM hN
    rw [h0]
    rfl
  | succ d ihd =>
    intro hd1
    have hd : d ≤ heightMN M N := by omega
    have ih := ihd hd
    have hq : (2 ^ heightMN M N - M * N) / 2 ^ (heightMN M N - d) =
        (2 ^ heightMN M N - M * N) / 2 ^ (heightMN M N - (d + 1)) / 2 := by
      rw [Nat.div_div_eq_div_mul]
      congr 1
      rw [← Nat.pow_succ]
      congr 1
      omega
    have hq1lt : (2 ^ heightMN M N - M * N) / 2 ^ (heightMN M N - (d + 1)) <
        2 ^ (d + 1) := by
      apply Nat.div_lt_of_lt_mul
      calc 2 ^ heightMN M N - M * N < 2 ^ heightMN M N :=
            diff_lt_two_pow_height hM hN
        _ = 2 ^ (heightMN M N - (d + 1)) * 2 ^ (d + 1) := by
            rw [← Nat.pow_add]
            congr 1
            omega
    have hmem : ((d + 1) ∈ find_abandon_index M N) ↔
        ((2 ^ heightMN M N - M * N) / 2 ^ (heightMN M N - (d + 1)) % 2 = 1) := by
      rw [mem_find_abandon_index hM hN, Nat.testBit_to_div_mod]
      simp only [decide_eq_true_eq]
      constructor
      · rintro ⟨_, _, h⟩
        exact h
      · intro h
        exact ⟨by omega, by omega, h⟩
    simp only [layer_size]
    rw [ih, hq]
    have hpow : (2 : Nat) ^ (d + 1) = 2 * 2 ^ d := by
      rw [Nat.pow_succ]
      ring
    by_cases hab : (d + 1) ∈ find_abandon_index M N
    · have hq1odd := hmem.mp hab
      rw [if_pos ⟨hab, by omega⟩]
      omega
    · have hq1even : (2 ^ heightMN M N - M * N) / 2 ^ (heightMN M N - (d + 1)) % 2 = 0 := by
        have : ¬((2 ^ heightMN M N - M * N) / 2 ^ (heightMN M N - (d + 1)) % 2 = 1) :=
          fun h => hab (hmem.mpr h)
        omega
      rw [if_neg (fun hcon => hab hcon.1)]
      omega

theorem layer_size_pos {M N : Nat} (hM : 1 ≤ M) (hN : 1 ≤ N) :
    ∀ d, d ≤ heightMN M N → 0 < layer_size (find_abandon_index M N) d := by
  intro d hd
  rw [layer_size_closed hM hN d hd]
  have hlt : (2 ^ heightMN M N - M * N) / 2 ^ (heightMN M N - d) < 2 ^ d := by
    apply Nat.div_lt_of_lt_mul
    calc 2 ^ heightMN M N - M * N < 2 ^ heightMN M N :=
          diff_lt_two_pow_height hM hN
      _ = 2 ^ (heightMN M N - d) * 2 ^ d := by
          rw [← Nat.pow_add]
          congr 1
          omega
  omega

theorem layer_size_height {M N : Nat} (hM : 1 ≤ M) (hN : 1 ≤ N) :
    layer_size (find_abandon_index M N) (heightMN M N) = M * N := by
  rw [layer_size_closed hM hN _ (Nat.le_refl _)]
  have h1 := prod_le_two_pow_height hM hN
  simp only [Nat.sub_self, Nat.pow_zero, Nat.div_one]
  omega

/-- C4: for all `M ≥ 1` and `N ≥ 1`, the sequence `_layer_sizes_from_MN(M,N)`
has first element 1, last element exactly `M*N`, and every element strictly
positive. -/
theorem layer_sizes_from_MN_spec {M N : Nat} (hM : 1 ≤ M) (hN : 1 ≤ N) :
    (layer_sizes_from_MN M N).getD 0 0 = 1 ∧
    (layer_sizes_from_MN M N).getLastD 0 = M * N ∧
    ∀ s ∈ layer_sizes_from_MN M N, 0 < s := by
  refine ⟨?_, ?_, ?_⟩
  · rw [layer_sizes_from_MN, map_range_getD _ _ _ _ (by omega)]
    rfl
  · rw [layer_sizes_from_MN, map_range_getLastD]
    exact layer_size_height hM hN
  · intro s hs
    rw [layer_sizes_from_MN] at hs
    rcases List.mem_map.mp hs with ⟨d, hd, rfl⟩
    exact layer_size_pos hM hN d (by
      have := List.mem_range.mp hd
      omega)

/-- Witness for C4 at `M = 3`, `N = 4`. -/
theorem layer_sizes_from_MN_spec_witness :
    (1 ≤ 3 ∧ 1 ≤ 4) ∧
      ((layer_sizes_from_MN 3 4).getD 0 0 = 1 ∧
       (layer_sizes_from_MN 3 4).getLastD 0 = 3 * 4 ∧
       ∀ s ∈ layer_sizes_from_MN 3 4, 0 < s) :=
  ⟨by omega, layer_sizes_from_MN_spec (by omega) (by omega)⟩

theorem bit_length_two_pow_sub_one (a : Nat) : bit_length (2 ^ a - 1) = a := by
  cases a with
  | zero => simp [bit_length_zero]
  | succ b =>
    have hpow : (2 : Nat) ^ (b + 1) = 2 * 2 ^ b := by
      rw [Nat.pow_succ]
      ring
    have hb : 0 < (2 : Nat) ^ b := Nat.two_pow_pos b
    apply bit_length_eq_of (by omega)
    · simp only [Nat.add_sub_cancel]
      omega
    · omega

/-- C5: for all `M ≥ 1` and `N ≥ 1`, with `H = bitlength(M-1) + bitlength(N-1)`,
`find_abandon_index(M,N)` has exactly `popcount(2^H - M*N)` elements (so it is
empty when `M*N` is a power of two), its elements are pairwise distinct, and
every element lies in `1..H`. -/
theorem find_abandon_index_spec {M N : Nat} (hM : 1 ≤ M) (hN : 1 ≤ N) :
    (find_abandon_index M N).length =
        popcount (2 ^ (bit_length (M - 1) + bit_length (N - 1)) - M * N) ∧
      (find_abandon_index M N).Nodup ∧
      (∀ a ∈ find_abandon_index M N,
        1 ≤ a ∧ a ≤ bit_length (M - 1) + bit_length (N - 1)) ∧
      (∀ k, M * N = 2 ^ k → find_abandon_index M N = []) := by
  refine ⟨?_, ?_, ?_, ?_⟩
  · rw [find_abandon_index_eq]
    exact find_abandon_loop_length _
  · have hpw : (find_abandon_index M N).Pairwise (· < ·) := by
      rw [find_abandon_index_eq]
      exact find_abandon_loop_pairwise _ (diff_lt_two_pow_height hM hN)
    exact List.Pairwise.imp Nat.ne_of_lt hpw
  · intro a ha
    have := (mem_find_abandon_index hM hN).mp ha
    exact ⟨this.1, this.2.1⟩
  · intro k hk
    have hMdvd : M ∣ 2 ^ k := by
      rw [← hk]
      exact Dvd.intro N rfl
    have hNdvd : N ∣ 2 ^ k := by
      rw [← hk]
      exact Dvd.intro_left M rfl
    rcases (Nat.dvd_prime_pow Nat.prime_two).mp hMdvd with ⟨a, _, hMa⟩
    rcases (Nat.dvd_prime_pow Nat.prime_two).mp hNdvd with ⟨b, _, hNb⟩
    have hH : heightMN M N = a + b := by
      show bit_length (M - 1) + bit_length (N - 1) = a + b
      rw [hMa, hNb, bit_length_two_pow_sub_one, bit_length_two_pow_sub_one]
    have hdiff0 : 2 ^ heightMN M N - M * N = 0 := by
      rw [hH, hMa, hNb, Nat.pow_add]
      exact Nat.sub_self _
    rw [find_abandon_index_eq, hdiff0]
    rfl

/-- Witness for C5 at `M = 3`, `N = 4` (where `H = 4` and `2^4 - 12 = 4`). -/
theorem find_abandon_index_spec_witness :
    (1 ≤ 3 ∧ 1 ≤ 4) ∧
      ((find_abandon_index 3 4).length =
          popcount (2 ^ (bit_length (3 - 1) + bit_length (4 - 1)) - 3 * 4) ∧
        (find_abandon_index 3 4).Nodup ∧
        (∀ a ∈ find_abandon_index 3 4,
          1 ≤ a ∧ a ≤ bit_length (3 - 1) + bit_length (4 - 1)) ∧
        (∀ k, 3 * 4 = 2 ^ k → find_abandon_index 3 4 = [])) :=
  ⟨by omega, find_abandon_index_spec (by omega) (by omega)⟩

/-! ### Tree builder structure -/

theorem childExpand_length {α : Type} (split : α → α × α) :
    ∀ l : List α, (childExpand split l).length = 2 * l.length := by
  intro l
  induction l with
  | nil => rfl
  | cons n rest ih =>
    simp only [childExpand, List.length_cons, ih]
    omega

theorem ggm_layer_length {α : Type} (split : α → α × α) (abandon : List Nat)
    (seed : α) : ∀ d, (ggm_layer split abandon seed d).length = layer_size abandon d := by
  intro d
  induction d with
  | zero => rfl
  | succ d ih =>
    simp only [ggm_layer, layer_size]
    by_cases hab : (d + 1) ∈ abandon
    · rw [if_pos hab, List.length_dropLast, childExpand_length, ih]
      by_cases hs : 0 < layer_size abandon d
      · rw [if_pos ⟨hab, hs⟩]
      · rw [if_neg (fun h => hs h.2)]
        omega
    · rw [if_neg hab, childExpand_length, ih, if_neg (fun h => hab h.1)]

theorem dropLast_getD {β : Type} :
    ∀ (l : List β) (k : Nat) (dflt : β), k < l.length - 1 →
      l.dropLast.getD k dflt = l.getD k dflt := by
  intro l k dflt hk
  have hk2 : k < l.dropLast.length := by
    rw [List.length_dropLast]
    exact hk
  rw [List.getD_eq_getElem?_getD, List.getD_eq_getElem?_getD,
    List.getElem?_eq_getElem hk2, List.getElem?_eq_getElem (by omega),
    List.getElem_dropLast]

theorem childExpand_getD {α : Type} [Inhabited α] (split : α → α × α) :
    ∀ (l : List α) (k : Nat), k < 2 * l.length →
      (childExpand split l).getD k default =
        (if k % 2 = 0 then (split (l.getD (k / 2) default)).1
         else (split (l.getD (k / 2) default)).2) := by
  intro l
  induction l with
  | nil =>
    intro k hk
    simp only [List.length_nil] at hk
    omega
  | cons n rest ih =>
    intro k hk
    match k with
    | 0 => simp [childExpand]
    | 1 => simp [childExpand]
    | (k' + 2) =>
      simp only [childExpand, List.getD_cons_succ]
      rw [ih k' (by simp only [List.length_cons] at hk; omega)]
      have h2 : (k' + 2) / 2 = k' / 2 + 1 := by omega
      have h3 : (k' + 2) % 2 = k' % 2 := by omega
      rw [h2, h3, List.getD_cons_succ]

theorem ggm_node_children {α : Type} [Inhabited α] (split : α → α × α)
    (abandon : List Nat) (seed : α) (d k : Nat)
    (hk : k < (ggm_layer split abandon seed (d + 1)).length) :
    (ggm_layer split abandon seed (d + 1)).getD k default =
      (if k % 2 = 0 then
        (split ((ggm_layer split abandon seed d).getD (k / 2) default)).1
       else
        (split ((ggm_layer split abandon seed d).getD (k / 2) default)).2) := by
  simp only [ggm_layer] at hk ⊢
  by_cases hab : (d + 1) ∈ abandon
  · rw [if_pos hab] at hk ⊢
    rw [List.length_dropLast] at hk
    rw [dropLast_getD _ _ _ hk]
    exact childExpand_getD split _ k (by
      rw [childExpand_length] at hk
      omega)
  · rw [if_neg hab] at hk ⊢
    exact childExpand_getD split _ k (by rwa [childExpand_length] at hk)

theorem ggm_generate_length {α : Type} [Inhabited α] (split : α → α × α)
    (seed : α) (M N : Nat) :
    (ggm_generate split seed M N).length = heightMN M N + 1 := by
  rw [ggm_generate, List.length_map, List.length_range]

theorem ggm_generate_getD {α : Type} [Inhabited α] (split : α → α × α)
    (seed : α) (M N d : Nat) (hd : d ≤ heightMN M N) :
    (ggm_generate split seed M N).getD d [] =
      ggm_layer split (find_abandon_index M N) seed d := by
  rw [ggm_generate, map_range_getD _ _ _ _ (by omega)]

/-- C3: for every seed and all `M ≥ 1`, `N ≥ 1`, `ggm_generate(seed,M,N)`
returns exactly `H+1` layers; for every depth `d ≤ H` the length of layer `d`
equals the `d`-th entry of `_layer_sizes_from_MN(M,N)`; and when `d+1` is an
abandon layer, layer `d+1` equals the full (left,right)-ordered child expansion
of layer `d` with exactly its last node dropped. -/
theorem ggm_generate_spec {α : Type} [Inhabited α] (split : α → α × α)
    (seed : α) {M N : Nat} (hM : 1 ≤ M) (hN : 1 ≤ N) :
    (ggm_generate split seed M N).length = heightMN M N + 1 ∧
    (∀ d, d ≤ heightMN M N →
      ((ggm_generate split seed M N).getD d []).length =
        (layer_sizes_from_MN M N).getD d 0) ∧
    (∀ d, d < heightMN M N → (d + 1) ∈ find_abandon_index M N →
      (ggm_generate split seed M N).getD (d + 1) [] =
        (childExpand split ((ggm_generate split seed M N).getD d [])).dropLast ∧
      (childExpand split ((ggm_generate split seed M N).getD d [])).length =
        ((ggm_generate split seed M N).getD (d + 1) []).length + 1) := by
  refine ⟨ggm_generate_length split seed M N, ?_, ?_⟩
  · intro d hd
    rw [ggm_generate_getD split seed M N d hd, layer_sizes_from_MN,
      map_range_getD _ _ _ _ (by omega)]
    exact ggm_layer_length split _ seed d
  · intro d hd hab
    rw [ggm_generate_getD split seed M N d (by omega),
      ggm_generate_getD split seed M N (d + 1) (by omega)]
    constructor
    · simp only [ggm_layer, if_pos hab]
    · have hlen := ggm_layer_length split (find_abandon_index M N) seed (d + 1)
      have hlend := ggm_layer_length split (find_abandon_index M N) seed d
      have hpos := layer_size_pos hM hN d (by omega)
      rw [childExpand_length, hlend, hlen]
      have hcond : (d + 1) ∈ find_abandon_index M N ∧
          0 < layer_size (find_abandon_index M N) d := ⟨hab, hpos⟩
      have hstep : layer_size (find_abandon_index M N) (d + 1) =
          2 * layer_size (find_abandon_index M N) d - 1 := by
        simp only [layer_size, if_pos hcond]
      omega

/-- Witness for C3 at `natSplit`, seed 0, `M = 3`, `N = 4`. -/
theorem ggm_generate_spec_witness :
    (1 ≤ 3 ∧ 1 ≤ 4) ∧
      ((ggm_generate natSplit 0 3 4).length = heightMN 3 4 + 1 ∧
       (∀ d, d ≤ heightMN 3 4 →
         ((ggm_generate natSplit 0 3 4).getD d []).length =
           (layer_sizes_from_MN 3 4).getD d 0) ∧
       (∀ d, d < heightMN 3 4 → (d + 1) ∈ find_abandon_index 3 4 →
         (ggm_generate natSplit 0 3 4).getD (d + 1) [] =
           (childExpand natSplit ((ggm_generate natSplit 0 3 4).getD d [])).dropLast ∧
         (childExpand natSplit ((ggm_generate natSplit 0 3 4).getD d [])).length =
           ((ggm_generate natSplit 0 3 4).getD (d + 1) []).length + 1)) :=
  ⟨by omega, ggm_generate_spec natSplit 0 (by omega) (by omega)⟩

/-! ### Sibling pairs and the challenge-derived target sets -/

theorem xor_one_eq (i : Nat) : i ^^^ 1 = 2 * (i / 2) + (1 - i % 2) := by
  apply Nat.eq_of_testBit_eq
  intro j
  rw [Nat.testBit_xor]
  cases j with
  | zero =>
    have hm : (2 * (i / 2) + (1 - i % 2)) % 2 = 1 - i % 2 := by omega
    simp only [Nat.testBit_zero, hm]
    rcases Nat.mod_two_eq_zero_or_one i with h | h <;> simp [h]
  | succ j =>
    have h2 : (1 : Nat) < 2 ^ (j + 1) := by
      have h3 : (2 : Nat) ^ 1 ≤ 2 ^ (j + 1) := Nat.pow_le_pow_right (by omega) (by omega)
      simp at h3
      omega
    have h1 : Nat.testBit 1 (j + 1) = false := Nat.testBit_lt_two_pow h2
    rw [h1, Nat.testBit_add_one, Nat.testBit_add_one]
    have hdiv : (2 * (i / 2) + (1 - i % 2)) / 2 = i / 2 := by omega
    rw [hdiv]
    simp

theorem pair_min_eq (i : Nat) : Nat.min i (i ^^^ 1) = 2 * (i / 2) := by
  rw [xor_one_eq]
  show (if i ≤ 2 * (i / 2) + (1 - i % 2) then i else 2 * (i / 2) + (1 - i % 2)) =
    2 * (i / 2)
  split <;> omega

theorem pair_max_eq (i : Nat) : Nat.max i (i ^^^ 1) = 2 * (i / 2) + 1 := by
  rw [xor_one_eq]
  show (if i ≤ 2 * (i / 2) + (1 - i % 2) then 2 * (i / 2) + (1 - i % 2) else i) =
    2 * (i / 2) + 1
  split <;> omega

theorem mem_pairsFlat {l : List (Nat × Nat)} {j : Nat} :
    j ∈ pairsFlat l ↔ ∃ p ∈ l, j = p.1 ∨ j = p.2 := by
  induction l with
  | nil => simp [pairsFlat]
  | cons p rest ih =>
    simp only [pairsFlat, List.mem_cons, ih]
    constructor
    · rintro (rfl | rfl | ⟨q, hq, hj⟩)
      · exact ⟨p, Or.inl rfl, Or.inl rfl⟩
      · exact ⟨p, Or.inl rfl, Or.inr rfl⟩
      · exact ⟨q, Or.inr hq, hj⟩
    · rintro ⟨q, (rfl | hq), hj⟩
      · tauto
      · exact Or.inr (Or.inr ⟨q, hq, hj⟩)

theorem mem_targetAt {A : List Nat} {H L x : Nat} :
    x ∈ targetAt A H L ↔ ∃ a ∈ A, a / 2 ^ (H - L) = x := by
  rw [targetAt, mem_sortDedup, List.mem_map]

theorem targetAt_pairwise (A : List Nat) (H L : Nat) :
    (targetAt A H L).Pairwise (· < ·) := sortDedup_pairwise _

theorem targetAt_eq_nil_iff {A : List Nat} {H L : Nat} :
    targetAt A H L = [] ↔ A = [] := by
  constructor
  · intro h
    cases A with
    | nil => rfl
    | cons a t =>
      have : a / 2 ^ (H - L) ∈ targetAt (a :: t) H L :=
        mem_targetAt.mpr ⟨a, List.mem_cons_self a t, rfl⟩
      rw [h] at this
      simp at this
  · rintro rfl
    rfl

theorem targetAt_top (A : List Nat) (H : Nat) : targetAt A H H = sortDedup A := by
  rw [targetAt]
  congr 1
  have : ∀ a ∈ A, a / 2 ^ (H - H) = a := by
    intro a _
    simp [Nat.sub_self]
  calc A.map (fun a => a / 2 ^ (H - H)) = A.map id := List.map_congr_left this
    _ = A := List.map_id A

theorem anc_div_step {a H L : Nat} (hL1 : 1 ≤ L) (hL2 : L ≤ H) :
    a / 2 ^ (H - L) / 2 = a / 2 ^ (H - (L - 1)) := by
  rw [Nat.div_div_eq_div_mul, ← Nat.pow_succ]
  congr 2
  omega

theorem parents_step (A : List Nat) (H L : Nat) (hL1 : 1 ≤ L) (hL2 : L ≤ H) :
    sortDedup ((sortDedupPairs ((targetAt A H L).map
        (fun i => (Nat.min i (i ^^^ 1), Nat.max i (i ^^^ 1))))).map
        (fun p => p.1 / 2)) = targetAt A H (L - 1) := by
  apply sortDedup_eq_of_mem_iff (targetAt_pairwise A H (L - 1))
  intro x
  rw [List.mem_map]
  constructor
  · rintro ⟨p, hp, rfl⟩
    rw [mem_sortDedupPairs] at hp
    rcases List.mem_map.mp hp with ⟨i, hi, rfl⟩
    rcases mem_targetAt.mp hi with ⟨a, ha, rfl⟩
    apply mem_targetAt.mpr
    refine ⟨a, ha, ?_⟩
    show a / 2 ^ (H - (L - 1)) = (Nat.min (a / 2 ^ (H - L)) (a / 2 ^ (H - L) ^^^ 1)) / 2
    rw [pair_min_eq, ← anc_div_step hL1 hL2]
    omega
  · intro hx
    rcases mem_targetAt.mp hx with ⟨a, ha, rfl⟩
    refine ⟨(Nat.min (a / 2 ^ (H - L)) (a / 2 ^ (H - L) ^^^ 1),
      Nat.max (a / 2 ^ (H - L)) (a / 2 ^ (H - L) ^^^ 1)), ?_, ?_⟩
    · rw [mem_sortDedupPairs]
      exact List.mem_map.mpr ⟨a / 2 ^ (H - L),
        mem_targetAt.mpr ⟨a, ha, rfl⟩, rfl⟩
    · rw [pair_min_eq, ← anc_div_step hL1 hL2]
      omega

/-! ### The opener loop -/

theorem ggm_open_loop_empty {α : Type} [Inhabited α] (layers : List (List α)) :
    ∀ L, ggm_open_loop layers L [] =
      (List.range L).map (fun k => (⟨L - k, [], []⟩ : Step α)) := by
  intro L
  induction L with
  | zero => rfl
  | succ L ih =>
    have hstep : ggm_open_loop layers (L + 1) ([] : List Nat) =
        (⟨L + 1, [], []⟩ : Step α) :: ggm_open_loop layers L [] := by
      simp [ggm_open_loop]
    rw [hstep, ih, List.range_succ_eq_map, List.map_cons, List.map_map]
    congr 1
    apply List.map_congr_left
    intro k _
    simp only [Function.comp_apply, Nat.succ_sub_succ]

theorem ggm_open_loop_eq {α : Type} [Inhabited α] (layers : List (List α))
    (A : List Nat) (hA : A ≠ []) (H : Nat) :
    ∀ L, L ≤ H → ggm_open_loop layers L (targetAt A H L) =
      (List.range L).map (fun k => openStepAt layers A H (L - k)) := by
  intro L
  induction L with
  | zero => intro _; rfl
  | succ L ih =>
    intro hL
    have hne : targetAt A H (L + 1) ≠ [] := by
      intro h
      exact hA (targetAt_eq_nil_iff.mp h)
    have hstep : ggm_open_loop layers (L + 1) (targetAt A H (L + 1)) =
        openStepAt layers A H (L + 1) :: ggm_open_loop layers L
          (sortDedup ((sortDedupPairs ((targetAt A H (L + 1)).map
            (fun i => (Nat.min i (i ^^^ 1), Nat.max i (i ^^^ 1))))).map
            (fun p => p.1 / 2))) := by
      simp only [ggm_open_loop, if_neg hne]
      rfl
    rw [hstep]
    have hpar := parents_step A H (L + 1) (by omega) (by omega)
    simp only [Nat.add_sub_cancel] at hpar
    rw [hpar, ih (by omega), List.range_succ_eq_map, List.map_cons, List.map_map]
    congr 1
    apply List.map_congr_left
    intro k _
    simp only [Function.comp_apply, Nat.succ_sub_succ]

theorem ggm_open_eq_of_ne_nil {α : Type} [Inhabited α] (layers : List (List α))
    (A : List Nat) (hA : A ≠ []) :
    ggm_open layers A = (List.range (layers.length - 1)).map
      (fun k => openStepAt layers A (layers.length - 1) (layers.length - 1 - k)) := by
  rw [ggm_open, ← targetAt_top A (layers.length - 1)]
  exact ggm_open_loop_eq layers A hA _ _ (Nat.le_refl _)

theorem openStepAt_layer {α : Type} [Inhabited α] (layers : List (List α))
    (A : List Nat) (H L : Nat) : (openStepAt layers A H L).layer = L := rfl

theorem openStepAt_values {α : Type} [Inhabited α] (layers : List (List α))
    (A : List Nat) (H L : Nat) :
    (openStepAt layers A H L).values = (openStepAt layers A H L).indices.map
      (fun k => (layers.getD L []).getD k default) := rfl

theorem openStepAt_length_eq {α : Type} [Inhabited α] (layers : List (List α))
    (A : List Nat) (H L : Nat) :
    (openStepAt layers A H L).indices.length = (openStepAt layers A H L).values.length := by
  rw [openStepAt_values, List.length_map]

theorem openStepAt_indices_pairwise {α : Type} [Inhabited α] (layers : List (List α))
    (A : List Nat) (H L : Nat) :
    (openStepAt layers A H L).indices.Pairwise (· < ·) :=
  ((sortDedup_pairwise _).filter _).filter _

theorem mem_openStepAt_indices {α : Type} [Inhabited α] {layers : List (List α)}
    {A : List Nat} {H L j : Nat} :
    j ∈ (openStepAt layers A H L).indices ↔
      (∃ i ∈ targetAt A H L, j / 2 = i / 2) ∧ j ∉ targetAt A H L ∧
        j < (layers.getD L []).length := by
  show j ∈ ((sortDedup _).filter _).filter _ ↔ _
  rw [List.mem_filter, List.mem_filter, mem_sortDedup]
  constructor
  · rintro ⟨⟨hflat, hnot⟩, hsize⟩
    rcases mem_pairsFlat.mp hflat with ⟨p, hp, hj⟩
    rw [mem_sortDedupPairs] at hp
    rcases List.mem_map.mp hp with ⟨i, hi, rfl⟩
    refine ⟨⟨i, hi, ?_⟩, by simpa using hnot, by simpa using hsize⟩
    rcases hj with hj | hj
    · rw [hj, pair_min_eq]
      omega
    · rw [hj, pair_max_eq]
      omega
  · rintro ⟨⟨i, hi, hdiv⟩, hnot, hsize⟩
    refine ⟨⟨?_, by simpa using hnot⟩, by simpa using hsize⟩
    apply mem_pairsFlat.mpr
    refine ⟨(Nat.min i (i ^^^ 1), Nat.max i (i ^^^ 1)), ?_, ?_⟩
    · rw [mem_sortDedupPairs]
      exact List.mem_map.mpr ⟨i, hi, rfl⟩
    · rw [pair_min_eq, pair_max_eq]
      omega

/-- C6: for every tree of height `H ≥ 1` and every challenge set of in-range
leaf indices, `ggm_open` returns exactly `H` steps with layer fields
`H, H-1, ..., 1` in order (empty steps included when the target set is empty),
and in every step the indices are strictly increasing, disjoint from the
challenge-derived target set of that layer, and as many as the values. -/
theorem ggm_open_structure {α : Type} [Inhabited α] (layers : List (List α))
    (A : List Nat) (h2 : 2 ≤ layers.length)
    (hA : ∀ a ∈ A, a < (layers.getLastD []).length) :
    (ggm_open layers A).length = layers.length - 1 ∧
    ∀ k, k < (ggm_open layers A).length →
      ((ggm_open layers A).getD k ⟨0, [], []⟩).layer = layers.length - 1 - k ∧
      ((ggm_open layers A).getD k ⟨0, [], []⟩).indices.Pairwise (· < ·) ∧
      (∀ i ∈ ((ggm_open layers A).getD k ⟨0, [], []⟩).indices,
        i ∉ targetAt A (layers.length - 1) (layers.length - 1 - k)) ∧
      ((ggm_open layers A).getD k ⟨0, [], []⟩).indices.length =
        ((ggm_open layers A).getD k ⟨0, [], []⟩).values.length := by
  by_cases hAnil : A = []
  · subst hAnil
    have hopen : ggm_open layers ([] : List Nat) =
        (List.range (layers.length - 1)).map
          (fun k => (⟨layers.length - 1 - k, [], []⟩ : Step α)) := by
      rw [ggm_open]
      exact ggm_open_loop_empty layers _
    rw [hopen]
    constructor
    · rw [List.length_map, List.length_range]
    · intro k hk
      rw [List.length_map, List.length_range] at hk
      rw [map_range_getD _ _ _ _ hk]
      exact ⟨rfl, by simp, by simp, rfl⟩
  · rw [ggm_open_eq_of_ne_nil layers A hAnil]
    constructor
    · rw [List.length_map, List.length_range]
    · intro k hk
      rw [List.length_map, List.length_range] at hk
      rw [map_range_getD _ _ _ _ hk]
      refine ⟨rfl, openStepAt_indices_pairwise layers A _ _, ?_,
        openStepAt_length_eq layers A _ _⟩
      intro i hi
      exact (mem_openStepAt_indices.mp hi).2.1

/-- Witness for C6 at the tree for `natSplit`, seed 0, `M = N = 2`, `A = [0, 3]`. -/
theorem ggm_open_structure_witness :
    (2 ≤ (ggm_generate natSplit 0 2 2).length ∧
      (∀ a ∈ [0, 3], a < ((ggm_generate natSplit 0 2 2).getLastD []).length)) ∧
    ((ggm_open (ggm_generate natSplit 0 2 2) [0, 3]).length =
        (ggm_generate natSplit 0 2 2).length - 1 ∧
      ∀ k, k < (ggm_open (ggm_generate natSplit 0 2 2) [0, 3]).length →
        ((ggm_open (ggm_generate natSplit 0 2 2) [0, 3]).getD k ⟨0, [], []⟩).layer =
          (ggm_generate natSplit 0 2 2).length - 1 - k ∧
        ((ggm_open (ggm_generate natSplit 0 2 2) [0, 3]).getD k
          ⟨0, [], []⟩).indices.Pairwise (· < ·) ∧
        (∀ i ∈ ((ggm_open (ggm_generate natSplit 0 2 2) [0, 3]).getD k
            ⟨0, [], []⟩).indices,
          i ∉ targetAt [0, 3] ((ggm_generate natSplit 0 2 2).length - 1)
            ((ggm_generate natSplit 0 2 2).length - 1 - k)) ∧
        ((ggm_open (ggm_generate natSplit 0 2 2) [0, 3]).getD k
            ⟨0, [], []⟩).indices.length =
          ((ggm_open (ggm_generate natSplit 0 2 2) [0, 3]).getD k
            ⟨0, [], []⟩).values.length) :=
  ⟨⟨by decide, by decide⟩, ggm_open_structure _ [0, 3] (by decide) (by decide)⟩

/-- C2: every node revealed in a step of `ggm_open` (layer `s.layer`, index
`i ∈ s.indices`, with value `layers[s.layer][i]`) has no leaf-layer descendant
whose leaf index lies in the challenge set `A`. -/
theorem ggm_open_secrecy {α : Type} [Inhabited α] (split : α → α × α) (seed : α)
    {M N : Nat} (hM : 1 ≤ M) (hN : 1 ≤ N) (A : List Nat)
    (hA : ∀ a ∈ A, a < M * N) :
    ∀ s ∈ ggm_open (ggm_generate split seed M N) A, ∀ i ∈ s.indices,
      ∀ a ∈ A, a / 2 ^ (heightMN M N - s.layer) ≠ i := by
  intro s hs i hi a ha heq
  have hAnil : A ≠ [] := by
    intro h
    rw [h] at ha
    simp at ha
  have hlen : (ggm_generate split seed M N).length - 1 = heightMN M N := by
    rw [ggm_generate_length]
    omega
  rw [ggm_open_eq_of_ne_nil _ A hAnil, hlen] at hs
  rcases List.mem_map.mp hs with ⟨k, _, rfl⟩
  rw [openStepAt_layer] at heq
  exact (mem_openStepAt_indices.mp hi).2.1 (mem_targetAt.mpr ⟨a, ha, heq⟩)

/-- Witness for C2 at `natSplit`, seed 0, `M = N = 2`, `A = [0]`. -/
theorem ggm_open_secrecy_witness :
    (1 ≤ 2 ∧ 1 ≤ 2 ∧ ∀ a ∈ [0], a < 2 * 2) ∧
      (∀ s ∈ ggm_open (ggm_generate natSplit 0 2 2) [0], ∀ i ∈ s.indices,
        ∀ a ∈ [0], a / 2 ^ (heightMN 2 2 - s.layer) ≠ i) :=
  ⟨by decide, ggm_open_secrecy natSplit 0 (by decide) (by decide) [0] (by decide)⟩

/-! ### Size bounds used by the verifier -/

theorem nat_min_def (a b : Nat) : Nat.min a b = if a ≤ b then a else b := rfl

theorem layer_sizes_length (M N : Nat) :
    (layer_sizes_from_MN M N).length = heightMN M N + 1 := by
  rw [layer_sizes_from_MN, List.length_map, List.length_range]

theorem layer_sizes_getD (M N d : Nat) (hd : d ≤ heightMN M N) :
    (layer_sizes_from_MN M N).getD d 0 =
      layer_size (find_abandon_index M N) d := by
  rw [layer_sizes_from_MN, map_range_getD _ _ _ _ (by omega)]

theorem layer_sizes_getLastD (M N : Nat) :
    (layer_sizes_from_MN M N).getLastD 0 =
      layer_size (find_abandon_index M N) (heightMN M N) := by
  rw [layer_sizes_from_MN, map_range_getLastD]

theorem anc_lt_layer_size {M N : Nat} (hM : 1 ≤ M) (hN : 1 ≤ N)
    {j L : Nat} (hj : j < M * N) (hL : L ≤ heightMN M N) :
    j / 2 ^ (heightMN M N - L) < layer_size (find_abandon_index M N) L := by
  rw [layer_size_closed hM hN L hL]
  have hE : 0 < 2 ^ (heightMN M N - L) := Nat.two_pow_pos _
  have hP : 0 < 2 ^ L := Nat.two_pow_pos _
  have hprod := prod_le_two_pow_height hM hN
  have hdl : (2 ^ heightMN M N - M * N) / 2 ^ (heightMN M N - L) < 2 ^ L := by
    apply Nat.div_lt_of_lt_mul
    calc 2 ^ heightMN M N - M * N < 2 ^ heightMN M N :=
          diff_lt_two_pow_height hM hN
      _ = 2 ^ (heightMN M N - L) * 2 ^ L := by
          rw [← Nat.pow_add]
          congr 1
          omega
  by_contra hcon
  have hge : 2 ^ L - (2 ^ heightMN M N - M * N) / 2 ^ (heightMN M N - L) ≤
      j / 2 ^ (heightMN M N - L) := by omega
  have hsum : 2 ^ L ≤ j / 2 ^ (heightMN M N - L) +
      (2 ^ heightMN M N - M * N) / 2 ^ (heightMN M N - L) := by omega
  have hmul : 2 ^ L * 2 ^ (heightMN M N - L) ≤
      (j / 2 ^ (heightMN M N - L) +
        (2 ^ heightMN M N - M * N) / 2 ^ (heightMN M N - L)) *
        2 ^ (heightMN M N - L) :=
    Nat.mul_le_mul_right _ hsum
  rw [Nat.add_mul] at hmul
  have h1 : j / 2 ^ (heightMN M N - L) * 2 ^ (heightMN M N - L) ≤ j :=
    Nat.div_mul_le_self _ _
  have h2 : (2 ^ heightMN M N - M * N) / 2 ^ (heightMN M N - L) *
      2 ^ (heightMN M N - L) ≤ 2 ^ heightMN M N - M * N :=
    Nat.div_mul_le_self _ _
  have h3 : 2 ^ L * 2 ^ (heightMN M N - L) = 2 ^ heightMN M N := by
    rw [← Nat.pow_add]
    congr 1
    omega
  omega

theorem size_mul_pow_ge {M N : Nat} (hM : 1 ≤ M) (hN : 1 ≤ N)
    {d : Nat} (hd : d ≤ heightMN M N) :
    M * N ≤ layer_size (find_abandon_index M N) d * 2 ^ (heightMN M N - d) := by
  rw [layer_size_closed hM hN d hd]
  have hprod := prod_le_two_pow_height hM hN
  have hsub : (2 ^ d - (2 ^ heightMN M N - M * N) / 2 ^ (heightMN M N - d)) *
      2 ^ (heightMN M N - d) =
      2 ^ d * 2 ^ (heightMN M N - d) -
        (2 ^ heightMN M N - M * N) / 2 ^ (heightMN M N - d) *
          2 ^ (heightMN M N - d) := Nat.sub_mul _ _ _
  have h2 : (2 ^ heightMN M N - M * N) / 2 ^ (heightMN M N - d) *
      2 ^ (heightMN M N - d) ≤ 2 ^ heightMN M N - M * N :=
    Nat.div_mul_le_self _ _
  have h3 : 2 ^ d * 2 ^ (heightMN M N - d) = 2 ^ heightMN M N := by
    rw [← Nat.pow_add]
    congr 1
    omega
  omega

theorem layer_size_succ_of_mem {abandon : List Nat} {d : Nat}
    (hmem : (d + 1) ∈ abandon) (hpos : 0 < layer_size abandon d) :
    layer_size abandon (d + 1) = 2 * layer_size abandon d - 1 := by
  simp only [layer_size, if_pos (And.intro hmem hpos)]

theorem layer_size_succ_of_not_mem {abandon : List Nat} {d : Nat}
    (hmem : (d + 1) ∉ abandon) :
    layer_size abandon (d + 1) = 2 * layer_size abandon d := by
  have hcond : ¬((d + 1) ∈ abandon ∧ 0 < layer_size abandon d) := by
    intro h
    exact hmem h.1
  simp only [layer_size, if_neg hcond]

/-! ### Re-expansion down to the leaves -/

theorem mem_range_one {s n m : Nat} : m ∈ List.range' s n ↔ s ≤ m ∧ m < s + n := by
  rw [List.mem_range']
  constructor
  · rintro ⟨i, hi, rfl⟩
    omega
  · intro h
    exact ⟨m - s, by omega, by omega⟩

theorem childExpand_map_range' {α : Type} [Inhabited α] (split : α → α × α)
    (g : Nat → α) :
    ∀ (n lo : Nat), childExpand split ((List.range' lo n).map g) =
      (List.range' (2 * lo) (2 * n)).map
        (fun k => if k % 2 = 0 then (split (g (k / 2))).1
          else (split (g (k / 2))).2) := by
  intro n
  induction n with
  | zero => intro lo; rfl
  | succ n ih =>
    intro lo
    rw [List.range'_succ, List.map_cons]
    simp only [childExpand]
    rw [ih (lo + 1)]
    have h2 : 2 * (n + 1) = 2 * n + 1 + 1 := by ring
    rw [h2, List.range'_succ, List.range'_succ, List.map_cons, List.map_cons]
    have e0 : (2 * lo) % 2 = 0 := by omega
    have e1 : (2 * lo) / 2 = lo := by omega
    have e2 : (2 * lo + 1) % 2 = 1 := by omega
    have e3 : (2 * lo + 1) / 2 = lo := by omega
    congr 1
    · simp [e0, e1]
    · congr 1
      simp [e2, e3]

theorem map_range'_dropLast {β : Type} (f : Nat → β) :
    ∀ (n s : Nat), ((List.range' s (n + 1)).map f).dropLast =
      (List.range' s n).map f := by
  intro n
  induction n with
  | zero => intro s; rfl
  | succ n ih =>
    intro s
    rw [List.range'_succ, List.map_cons,
      List.dropLast_cons_of_ne_nil (by
        have hlen : ((List.range' (s + 1) (n + 1)).map f).length = n + 1 := by
          rw [List.length_map, List.length_range']
        intro hnil
        rw [hnil] at hlen
        simp at hlen),
      ih (s + 1), ← List.map_cons, ← List.range'_succ]

theorem map_range'_getD {β : Type} (f : Nat → β) (dflt : β) {n s k : Nat}
    (h : k < n) : ((List.range' s n).map f).getD k dflt = f (s + k) := by
  rw [List.getD_eq_getElem?_getD, List.getElem?_map, List.getElem?_range' s 1 h]
  simp

theorem expand_loop_spec {α : Type} [Inhabited α] (split : α → α × α) (seed : α)
    {M N : Nat} (hM : 1 ≤ M) (hN : 1 ≤ N) :
    ∀ (fuel d lo hi : Nat), d + fuel = heightMN M N → lo ≤ hi →
      hi < layer_size (find_abandon_index M N) d →
      expand_to_leaves_loop split (layer_sizes_from_MN M N) fuel d lo hi
        ((List.range' lo (hi + 1 - lo)).map
          (fun k => (ggm_layer split (find_abandon_index M N) seed d).getD k default)) =
      (lo * 2 ^ fuel,
        (List.range' (lo * 2 ^ fuel)
          (Nat.min ((hi + 1) * 2 ^ fuel) (M * N) - lo * 2 ^ fuel)).map
          (fun k => (ggm_layer split (find_abandon_index M N) seed
            (heightMN M N)).getD k default)) := by
  intro fuel
  induction fuel with
  | zero =>
    intro d lo hi hd hlohi hhi
    have hd' : d = heightMN M N := by omega
    subst hd'
    rw [layer_size_height hM hN] at hhi
    simp only [expand_to_leaves_loop, Nat.pow_zero, Nat.mul_one]
    have hmin : Nat.min (hi + 1) (M * N) = hi + 1 := by
      rw [nat_min_def]
      split <;> omega
    rw [hmin]
  | succ fuel ih =>
    intro d lo hi hd hlohi hhi
    have hd1 : d + 1 ≤ heightMN M N := by omega
    have hpos_d : 0 < layer_size (find_abandon_index M N) d :=
      layer_size_pos hM hN d (by omega)
    have hpos_d1 : 0 < layer_size (find_abandon_index M N) (d + 1) :=
      layer_size_pos hM hN (d + 1) hd1
    have hsz_le : layer_size (find_abandon_index M N) (d + 1) ≤
        2 * layer_size (find_abandon_index M N) d := by
      by_cases hab : (d + 1) ∈ find_abandon_index M N
      · rw [layer_size_succ_of_mem hab hpos_d]
        omega
      · rw [layer_size_succ_of_not_mem hab]
    have hsz_ge : 2 * layer_size (find_abandon_index M N) d - 1 ≤
        layer_size (find_abandon_index M N) (d + 1) := by
      by_cases hab : (d + 1) ∈ find_abandon_index M N
      · rw [layer_size_succ_of_mem hab hpos_d]
      · rw [layer_size_succ_of_not_mem hab]
        omega
    have hlen_d1 : (ggm_layer split (find_abandon_index M N) seed (d + 1)).length =
        layer_size (find_abandon_index M N) (d + 1) :=
      ggm_layer_length split _ seed (d + 1)
    simp only [expand_to_leaves_loop]
    rw [layer_sizes_getD M N (d + 1) hd1]
    rw [childExpand_map_range' split _ (hi + 1 - lo) lo]
    by_cases hcond : 2 * lo ≤ layer_size (find_abandon_index M N) (d + 1) ∧
        layer_size (find_abandon_index M N) (d + 1) ≤ 2 * hi + 1
    · -- the subtree touches the dropped last node of an abandon layer
      have hab : (d + 1) ∈ find_abandon_index M N := by
        by_contra hab
        rw [layer_size_succ_of_not_mem hab] at hcond
        omega
      have hsz1 : layer_size (find_abandon_index M N) (d + 1) =
          2 * layer_size (find_abandon_index M N) d - 1 :=
        layer_size_succ_of_mem hab hpos_d
      have hhi_top : hi = layer_size (find_abandon_index M N) d - 1 := by
        omega
      rw [if_pos hcond]
      have hcnt : 2 * (hi + 1 - lo) = (2 * hi + 1 - 2 * lo) + 1 := by omega
      rw [hcnt, map_range'_dropLast]
      have hmapeq : (List.range' (2 * lo) (2 * hi + 1 - 2 * lo)).map
          (fun k => if k % 2 = 0 then
            (split ((ggm_layer split (find_abandon_index M N) seed d).getD
              (k / 2) default)).1
          else
            (split ((ggm_layer split (find_abandon_index M N) seed d).getD
              (k / 2) default)).2) =
          (List.range' (2 * lo) (2 * hi + 1 - 2 * lo)).map
          (fun k => (ggm_layer split (find_abandon_index M N) seed
            (d + 1)).getD k default) := by
        apply List.map_congr_left
        intro k hk
        rw [mem_range_one] at hk
        exact (ggm_node_children split _ seed d k (by
          rw [hlen_d1]
          omega)).symm
      rw [hmapeq]
      have hh : 2 * hi + 1 - 1 = 2 * hi := by omega
      rw [hh]
      rw [ih (d + 1) (2 * lo) (2 * hi) (by omega) (by omega) (by omega)]
      have hlo : 2 * lo * 2 ^ fuel = lo * 2 ^ (fuel + 1) := by
        rw [Nat.pow_succ]
        ring
      have hge1 : M * N ≤ (2 * hi + 1) * 2 ^ fuel := by
        have := size_mul_pow_ge hM hN hd1
        have hexp : heightMN M N - (d + 1) = fuel := by omega
        rw [hexp] at this
        have heq : (2 * hi + 1) = layer_size (find_abandon_index M N) (d + 1) := by
          omega
        rw [heq]
        exact this
      have hge2 : M * N ≤ (hi + 1) * 2 ^ (fuel + 1) := by
        have := size_mul_pow_ge hM hN (show d ≤ heightMN M N by omega)
        have hexp : heightMN M N - d = fuel + 1 := by omega
        rw [hexp] at this
        have heq : (hi + 1) = layer_size (find_abandon_index M N) d := by omega
        rw [heq]
        exact this
      have hmin1 : Nat.min ((2 * hi + 1) * 2 ^ fuel) (M * N) = M * N := by
        rw [nat_min_def]
        split <;> omega
      have hmin2 : Nat.min ((hi + 1) * 2 ^ (fuel + 1)) (M * N) = M * N := by
        rw [nat_min_def]
        split <;> omega
      rw [hmin1, hmin2, hlo]
    · -- no pruning hits this subtree at layer d+1
      have hhi2 : 2 * hi + 1 < layer_size (find_abandon_index M N) (d + 1) := by
        have hlo2 : 2 * lo ≤ layer_size (find_abandon_index M N) (d + 1) := by
          omega
        omega
      rw [if_neg hcond]
      have hcnt : 2 * (hi + 1 - lo) = (2 * hi + 1) + 1 - 2 * lo := by omega
      rw [hcnt]
      have hmapeq : (List.range' (2 * lo) (2 * hi + 1 + 1 - 2 * lo)).map
          (fun k => if k % 2 = 0 then
            (split ((ggm_layer split (find_abandon_index M N) seed d).getD
              (k / 2) default)).1
          else
            (split ((ggm_layer split (find_abandon_index M N) seed d).getD
              (k / 2) default)).2) =
          (List.range' (2 * lo) (2 * hi + 1 + 1 - 2 * lo)).map
          (fun k => (ggm_layer split (find_abandon_index M N) seed
            (d + 1)).getD k default) := by
        apply List.map_congr_left
        intro k hk
        rw [mem_range_one] at hk
        exact (ggm_node_children split _ seed d k (by
          rw [hlen_d1]
          omega)).symm
      rw [hmapeq]
      rw [ih (d + 1) (2 * lo) (2 * hi + 1) (by omega) (by omega) hhi2]
      have hlo : 2 * lo * 2 ^ fuel = lo * 2 ^ (fuel + 1) := by
        rw [Nat.pow_succ]
        ring
      have hcnt3 : (2 * hi + 1 + 1) * 2 ^ fuel = (hi + 1) * 2 ^ (fuel + 1) := by
        rw [Nat.pow_succ]
        ring
      rw [hlo, hcnt3]

theorem expand_to_leaves_spec {α : Type} [Inhabited α] (split : α → α × α)
    (seed : α) {M N : Nat} (hM : 1 ≤ M) (hN : 1 ≤ N) {L i : Nat}
    (hL : L ≤ heightMN M N) (hi : i < layer_size (find_abandon_index M N) L) :
    expand_to_leaves split
      ((ggm_layer split (find_abandon_index M N) seed L).getD i default)
      L i (heightMN M N) (layer_sizes_from_MN M N) =
    (i * 2 ^ (heightMN M N - L),
      (List.range' (i * 2 ^ (heightMN M N - L))
        (Nat.min ((i + 1) * 2 ^ (heightMN M N - L)) (M * N) -
          i * 2 ^ (heightMN M N - L))).map
        (fun k => (ggm_layer split (find_abandon_index M N) seed
          (heightMN M N)).getD k default)) := by
  have harg : [(ggm_layer split (find_abandon_index M N) seed L).getD i default] =
      (List.range' i (i + 1 - i)).map
        (fun k => (ggm_layer split (find_abandon_index M N) seed L).getD k default) := by
    have h1 : i + 1 - i = 1 := by omega
    rw [h1]
    rfl
  rw [expand_to_leaves, harg]
  exact expand_loop_spec split seed hM hN (heightMN M N - L) L i i (by omega)
    (Nat.le_refl i) hi

/-! ### Writing recovered leaves -/

theorem getD_set {β : Type} :
    ∀ (l : List β) (i j : Nat) (v dflt : β),
      (l.set i v).getD j dflt =
        if i = j ∧ j < l.length then v else l.getD j dflt := by
  intro l
  induction l with
  | nil =>
    intro i j v dflt
    rw [if_neg (by simp)]
    rfl
  | cons a t ih =>
    intro i j v dflt
    cases i with
    | zero =>
      cases j with
      | zero => simp [List.set]
      | succ j => simp [List.set]
    | succ i =>
      cases j with
      | zero => simp [List.set]
      | succ j =>
        simp only [List.set, List.getD_cons_succ, List.length_cons]
        rw [ih i j v dflt]
        by_cases h : i = j ∧ j < t.length
        · rw [if_pos h, if_pos (by omega)]
        · rw [if_neg h, if_neg (by omega)]

theorem length_writeList {α : Type} :
    ∀ (ls : List α) (r : List (Option α)) (gi : Nat),
      (writeList r gi ls).length = r.length := by
  intro ls
  induction ls with
  | nil => intro r gi; rfl
  | cons leaf rest ih =>
    intro r gi
    simp only [writeList]
    rw [ih, List.length_set]

theorem writeList_map_getD {α : Type} [Inhabited α] (g : Nat → α) :
    ∀ (n : Nat) (r : List (Option α)) (lo j : Nat), lo + n ≤ r.length →
      (writeList r lo ((List.range' lo n).map g)).getD j none =
        if lo ≤ j ∧ j < lo + n then some (g j) else r.getD j none := by
  intro n
  induction n with
  | zero =>
    intro r lo j h
    rw [if_neg (by omega)]
    rfl
  | succ n ih =>
    intro r lo j h
    rw [List.range'_succ, List.map_cons]
    simp only [writeList]
    rw [ih (r.set lo (some (g lo))) (lo + 1) j (by rw [List.length_set]; omega)]
    by_cases hj : lo + 1 ≤ j ∧ j < lo + 1 + n
    · rw [if_pos hj, if_pos (by omega)]
    · rw [if_neg hj, getD_set]
      by_cases hj2 : lo = j ∧ j < r.length
      · rcases hj2 with ⟨rfl, hlt⟩
        rw [if_pos (And.intro rfl hlt), if_pos (by omega)]
      · rw [if_neg hj2, if_neg (by omega)]

theorem write_leaves_ok {α : Type} :
    ∀ (ls : List α) (r : List (Option α)) (total gi : Nat),
      gi + ls.length ≤ total →
      write_leaves total gi ls r = .ok (writeList r gi ls) := by
  intro ls
  induction ls with
  | nil => intro r total gi h; rfl
  | cons leaf rest ih =>
    intro r total gi h
    simp only [List.length_cons] at h
    simp only [write_leaves, writeList]
    rw [if_pos (by omega)]
    exact ih _ total (gi + 1) (by omega)

theorem node_leaf_lo_lt {M N : Nat} (hM : 1 ≤ M) (hN : 1 ≤ N) {L i : Nat}
    (hL : L ≤ heightMN M N) (hi : i < layer_size (find_abandon_index M N) L) :
    i * 2 ^ (heightMN M N - L) < M * N := by
  have hE : 0 < 2 ^ (heightMN M N - L) := Nat.two_pow_pos _
  have hprod := prod_le_two_pow_height hM hN
  have hMN1 : 1 ≤ M * N := Nat.mul_le_mul hM hN
  have hclosed := layer_size_closed hM hN L hL
  have hdm := Nat.div_add_mod (2 ^ heightMN M N - M * N) (2 ^ (heightMN M N - L))
  have hmlt : (2 ^ heightMN M N - M * N) % 2 ^ (heightMN M N - L) <
      2 ^ (heightMN M N - L) := Nat.mod_lt _ hE
  have h1 : (i + 1) * 2 ^ (heightMN M N - L) ≤
      layer_size (find_abandon_index M N) L * 2 ^ (heightMN M N - L) :=
    Nat.mul_le_mul_right _ (by omega)
  have h2 : layer_size (find_abandon_index M N) L * 2 ^ (heightMN M N - L) =
      2 ^ L * 2 ^ (heightMN M N - L) -
        (2 ^ heightMN M N - M * N) / 2 ^ (heightMN M N - L) *
          2 ^ (heightMN M N - L) := by
    rw [hclosed, Nat.sub_mul]
  have h3 : 2 ^ L * 2 ^ (heightMN M N - L) = 2 ^ heightMN M N := by
    rw [← Nat.pow_add]
    congr 1
    omega
  have h5 : (2 ^ heightMN M N - M * N) / 2 ^ (heightMN M N - L) *
      2 ^ (heightMN M N - L) =
      2 ^ (heightMN M N - L) *
        ((2 ^ heightMN M N - M * N) / 2 ^ (heightMN M N - L)) :=
    Nat.mul_comm _ _
  have h6 : (i + 1) * 2 ^ (heightMN M N - L) =
      i * 2 ^ (heightMN M N - L) + 2 ^ (heightMN M N - L) := by
    rw [Nat.add_mul, Nat.one_mul]
  omega

theorem div_eq_iff_range {j i E : Nat} (hE : 0 < E) :
    j / E = i ↔ (i * E ≤ j ∧ j < (i + 1) * E) := by
  constructor
  · rintro rfl
    have h1 := Nat.div_add_mod j E
    have h2 : j % E < E := Nat.mod_lt _ hE
    constructor
    · rw [Nat.mul_comm]
      omega
    · rw [Nat.add_mul, Nat.one_mul, Nat.mul_comm]
      omega
  · rintro ⟨h1, h2⟩
    exact Nat.div_eq_of_lt_le h1 h2

/-! ### The verifier on well-formed openings -/

theorem verify_pairs_cons {α : Type} [Inhabited α] (split : α → α × α)
    (sizes : List Nat) (H total L : Nat) (iv : Nat × α) (rest : List (Nat × α))
    (r w : List (Option α))
    (hw : write_leaves total (expand_to_leaves split iv.2 L iv.1 H sizes).1
        (expand_to_leaves split iv.2 L iv.1 H sizes).2 r = .ok w) :
    verify_pairs split sizes H total L (iv :: rest) r =
      verify_pairs split sizes H total L rest w := by
  simp only [verify_pairs]
  rw [hw]

theorem verify_steps_cons {α : Type} [Inhabited α] (split : α → α × α)
    (sizes : List Nat) (H total : Nat) (st : Step α) (rest : List (Step α))
    (r w : List (Option α))
    (hw : verify_pairs split sizes H total st.layer
        (st.indices.zip st.values) r = .ok w) :
    verify_steps split sizes H total (st :: rest) r =
      verify_steps split sizes H total rest w := by
  simp only [verify_steps]
  rw [hw]

theorem verify_pairs_spec {α : Type} [Inhabited α] (split : α → α × α) (seed : α)
    {M N : Nat} (hM : 1 ≤ M) (hN : 1 ≤ N) {L : Nat} (hL : L ≤ heightMN M N) :
    ∀ (ns : List Nat), (∀ i ∈ ns, i < layer_size (find_abandon_index M N) L) →
    ∀ (r : List (Option α)), r.length = M * N →
    ∃ r1, verify_pairs split (layer_sizes_from_MN M N) (heightMN M N) (M * N) L
        (ns.map (fun i => (i,
          (ggm_layer split (find_abandon_index M N) seed L).getD i default))) r =
        .ok r1 ∧
      r1.length = M * N ∧
      ∀ j, j < M * N →
        (j / 2 ^ (heightMN M N - L) ∈ ns →
          r1.getD j none = some ((ggm_layer split (find_abandon_index M N) seed
            (heightMN M N)).getD j default)) ∧
        (j / 2 ^ (heightMN M N - L) ∉ ns →
          r1.getD j none = r.getD j none) := by
  intro ns
  induction ns with
  | nil =>
    intro _ r hr
    exact ⟨r, rfl, hr, fun j _ => ⟨fun hj => absurd hj (by simp), fun _ => rfl⟩⟩
  | cons i rest ih =>
    intro hns r hr
    have hiS : i < layer_size (find_abandon_index M N) L :=
      hns i (List.mem_cons_self i rest)
    have hE : 0 < 2 ^ (heightMN M N - L) := Nat.two_pow_pos _
    have hexp := expand_to_leaves_spec split seed hM hN hL hiS
    have hlo_lt : i * 2 ^ (heightMN M N - L) < M * N :=
      node_leaf_lo_lt hM hN hL hiS
    have h6 : (i + 1) * 2 ^ (heightMN M N - L) =
        i * 2 ^ (heightMN M N - L) + 2 ^ (heightMN M N - L) := by
      rw [Nat.add_mul, Nat.one_mul]
    have hmin_le : Nat.min ((i + 1) * 2 ^ (heightMN M N - L)) (M * N) ≤ M * N := by
      rw [nat_min_def]
      split <;> omega
    have hmin_ge : i * 2 ^ (heightMN M N - L) ≤
        Nat.min ((i + 1) * 2 ^ (heightMN M N - L)) (M * N) := by
      rw [nat_min_def]
      split <;> omega
    have hwl := write_leaves_ok
      ((List.range' (i * 2 ^ (heightMN M N - L))
        (Nat.min ((i + 1) * 2 ^ (heightMN M N - L)) (M * N) -
          i * 2 ^ (heightMN M N - L))).map
        (fun k => (ggm_layer split (find_abandon_index M N) seed
          (heightMN M N)).getD k default))
      r (M * N) (i * 2 ^ (heightMN M N - L))
      (by rw [List.length_map, List.length_range']; omega)
    obtain ⟨r1, hrun, hlen1, hprop⟩ := ih
      (fun x hx => hns x (List.mem_cons.mpr (Or.inr hx)))
      (writeList r (i * 2 ^ (heightMN M N - L))
        ((List.range' (i * 2 ^ (heightMN M N - L))
          (Nat.min ((i + 1) * 2 ^ (heightMN M N - L)) (M * N) -
            i * 2 ^ (heightMN M N - L))).map
          (fun k => (ggm_layer split (find_abandon_index M N) seed
            (heightMN M N)).getD k default)))
      (by rw [length_writeList, hr])
    refine ⟨r1, ?_, hlen1, ?_⟩
    · rw [List.map_cons, verify_pairs_cons split _ _ _ _ _ _ r _ (by
        show write_leaves (M * N)
          (expand_to_leaves split ((i, (ggm_layer split (find_abandon_index M N)
            seed L).getD i default)).2 L ((i, (ggm_layer split
            (find_abandon_index M N) seed L).getD i default)).1 (heightMN M N)
            (layer_sizes_from_MN M N)).1 _ r = _
        rw [hexp]
        exact hwl)]
      exact hrun
    · intro j hj
      have hwrite : (writeList r (i * 2 ^ (heightMN M N - L))
          ((List.range' (i * 2 ^ (heightMN M N - L))
            (Nat.min ((i + 1) * 2 ^ (heightMN M N - L)) (M * N) -
              i * 2 ^ (heightMN M N - L))).map
            (fun k => (ggm_layer split (find_abandon_index M N) seed
              (heightMN M N)).getD k default))).getD j none =
          if i * 2 ^ (heightMN M N - L) ≤ j ∧
              j < i * 2 ^ (heightMN M N - L) +
                (Nat.min ((i + 1) * 2 ^ (heightMN M N - L)) (M * N) -
                  i * 2 ^ (heightMN M N - L)) then
            some ((ggm_layer split (find_abandon_index M N) seed
              (heightMN M N)).getD j default)
          else r.getD j none :=
        writeList_map_getD _ _ r _ j (by omega)
      have hcov_iff : (i * 2 ^ (heightMN M N - L) ≤ j ∧
          j < i * 2 ^ (heightMN M N - L) +
            (Nat.min ((i + 1) * 2 ^ (heightMN M N - L)) (M * N) -
              i * 2 ^ (heightMN M N - L))) ↔
          j / 2 ^ (heightMN M N - L) = i := by
        rw [div_eq_iff_range hE]
        rw [nat_min_def] at hmin_ge ⊢
        constructor
        · intro hcc
          split at hcc <;> omega
        · intro hcc
          split <;> omega
      constructor
      · intro hmem
        rcases List.mem_cons.mp hmem with heqi | hmem'
        · by_cases hmem2 : j / 2 ^ (heightMN M N - L) ∈ rest
          · exact ((hprop j hj).1 hmem2)
          · rw [(hprop j hj).2 hmem2, hwrite, if_pos (hcov_iff.mpr heqi)]
        · exact (hprop j hj).1 hmem'
      · intro hmem
        have hne_i : ¬(j / 2 ^ (heightMN M N - L) = i) := by
          intro h
          exact hmem (by rw [h]; exact List.mem_cons_self i rest)
        have hnrest : j / 2 ^ (heightMN M N - L) ∉ rest := by
          intro h
          exact hmem (List.mem_cons.mpr (Or.inr h))
        rw [(hprop j hj).2 hnrest, hwrite,
          if_neg (fun hcc => hne_i (hcov_iff.mp hcc))]

theorem replicate_getD_none {α : Type} :
    ∀ (n j : Nat), (List.replicate n (none : Option α)).getD j none = none := by
  intro n
  induction n with
  | zero => intro j; rfl
  | succ n ih =>
    intro j
    cases j with
    | zero => rfl
    | succ j => exact ih j

theorem zip_self_map {α β : Type} (l : List α) (f : α → β) :
    l.zip (l.map f) = l.map (fun a => (a, f a)) := by
  induction l with
  | nil => rfl
  | cons a t ih => simp only [List.map_cons, List.zip_cons_cons, ih]

theorem verify_steps_empty_steps {α : Type} [Inhabited α] (split : α → α × α)
    (sizes : List Nat) (H total : Nat) :
    ∀ (steps : List (Step α)), (∀ s ∈ steps, s.indices = []) →
      ∀ r, verify_steps split sizes H total steps r = .ok r := by
  intro steps
  induction steps with
  | nil => intro _ r; rfl
  | cons st rest ih =>
    intro hall r
    have hind : st.indices = [] := hall st (List.mem_cons_self st rest)
    rw [verify_steps_cons split sizes H total st rest r r (by
      rw [hind]
      rfl)]
    exact ih (fun s hs => hall s (List.mem_cons.mpr (Or.inr hs))) r

theorem not_covered_of_mem_A {α : Type} [Inhabited α] {layers : List (List α)}
    {A : List Nat} {H j : Nat} (hjA : j ∈ A) :
    ∀ ℓ, j / 2 ^ (H - ℓ) ∉ (openStepAt layers A H ℓ).indices := by
  intro ℓ hmem
  exact (mem_openStepAt_indices.mp hmem).2.1 (mem_targetAt.mpr ⟨j, hjA, rfl⟩)

theorem covered_of_not_mem_A {α : Type} [Inhabited α] (split : α → α × α)
    (seed : α) {M N : Nat} (hM : 1 ≤ M) (hN : 1 ≤ N) {A : List Nat}
    (hA : ∀ a ∈ A, a < M * N) (hne : A ≠ []) {j : Nat} (hj : j < M * N)
    (hjA : j ∉ A) :
    ∃ ℓ, 0 < ℓ ∧ ℓ ≤ heightMN M N ∧
      j / 2 ^ (heightMN M N - ℓ) ∈
        (openStepAt (ggm_generate split seed M N) A (heightMN M N) ℓ).indices := by
  have haux : ∀ c k, k + c = heightMN M N →
      j / 2 ^ (heightMN M N - k) ∈ targetAt A (heightMN M N) k →
      ∃ ℓ, k < ℓ ∧ ℓ ≤ heightMN M N ∧
        j / 2 ^ (heightMN M N - ℓ) ∈
          (openStepAt (ggm_generate split seed M N) A (heightMN M N) ℓ).indices := by
    intro c
    induction c with
    | zero =>
      intro k hk hmem
      exfalso
      have hkH : k = heightMN M N := by omega
      subst hkH
      rw [targetAt_top, Nat.sub_self, Nat.pow_zero, Nat.div_one] at hmem
      exact hjA (mem_sortDedup.mp hmem)
    | succ c ihc =>
      intro k hk hmem
      by_cases hnext : j / 2 ^ (heightMN M N - (k + 1)) ∈
          targetAt A (heightMN M N) (k + 1)
      · obtain ⟨ℓ, h1, h2, h3⟩ := ihc (k + 1) (by omega) hnext
        exact ⟨ℓ, by omega, h2, h3⟩
      · refine ⟨k + 1, by omega, by omega, ?_⟩
        apply mem_openStepAt_indices.mpr
        refine ⟨?_, hnext, ?_⟩
        · rcases mem_targetAt.mp hmem with ⟨a, ha, haanc⟩
          refine ⟨a / 2 ^ (heightMN M N - (k + 1)),
            mem_targetAt.mpr ⟨a, ha, rfl⟩, ?_⟩
          rw [anc_div_step (by omega) (by omega),
            anc_div_step (by omega) (by omega)]
          simp only [Nat.add_sub_cancel]
          exact haanc.symm
        · rw [ggm_generate_getD split seed M N (k + 1) (by omega),
            ggm_layer_length]
          exact anc_lt_layer_size hM hN hj (by omega)
  have hstart : j / 2 ^ (heightMN M N - 0) ∈ targetAt A (heightMN M N) 0 := by
    cases A with
    | nil => exact absurd rfl hne
    | cons a t =>
      apply mem_targetAt.mpr
      refine ⟨a, List.mem_cons_self a t, ?_⟩
      have hprod := prod_le_two_pow_height hM hN
      have h1 : a < 2 ^ heightMN M N := by
        have := hA a (List.mem_cons_self a t)
        omega
      have h2 : j < 2 ^ heightMN M N := by omega
      rw [Nat.sub_zero, Nat.div_eq_of_lt h1, Nat.div_eq_of_lt h2]
  obtain ⟨ℓ, h1, h2, h3⟩ := haux (heightMN M N) 0 (by omega) hstart
  exact ⟨ℓ, h1, h2, h3⟩

theorem verify_steps_spec {α : Type} [Inhabited α] (split : α → α × α) (seed : α)
    {M N : Nat} (hM : 1 ≤ M) (hN : 1 ≤ N) (A : List Nat) :
    ∀ (m : Nat), m ≤ heightMN M N → ∀ (r : List (Option α)), r.length = M * N →
      (∀ j, j < M * N →
        ((∃ ℓ, m < ℓ ∧ ℓ ≤ heightMN M N ∧ j / 2 ^ (heightMN M N - ℓ) ∈
            (openStepAt (ggm_generate split seed M N) A (heightMN M N) ℓ).indices) →
          r.getD j none = some ((ggm_layer split (find_abandon_index M N) seed
            (heightMN M N)).getD j default)) ∧
        (¬(∃ ℓ, m < ℓ ∧ ℓ ≤ heightMN M N ∧ j / 2 ^ (heightMN M N - ℓ) ∈
            (openStepAt (ggm_generate split seed M N) A (heightMN M N) ℓ).indices) →
          r.getD j none = none)) →
      ∃ rf, verify_steps split (layer_sizes_from_MN M N) (heightMN M N) (M * N)
          ((List.range m).map (fun k =>
            openStepAt (ggm_generate split seed M N) A (heightMN M N) (m - k))) r =
          .ok rf ∧
        rf.length = M * N ∧
        ∀ j, j < M * N →
          ((∃ ℓ, 0 < ℓ ∧ ℓ ≤ heightMN M N ∧ j / 2 ^ (heightMN M N - ℓ) ∈
              (openStepAt (ggm_generate split seed M N) A (heightMN M N) ℓ).indices) →
            rf.getD j none = some ((ggm_layer split (find_abandon_index M N) seed
              (heightMN M N)).getD j default)) ∧
          (¬(∃ ℓ, 0 < ℓ ∧ ℓ ≤ heightMN M N ∧ j / 2 ^ (heightMN M N - ℓ) ∈
              (openStepAt (ggm_generate split seed M N) A (heightMN M N) ℓ).indices) →
            rf.getD j none = none) := by
  intro m
  induction m with
  | zero =>
    intro _ r hr hinv
    exact ⟨r, rfl, hr, hinv⟩
  | succ m ih =>
    intro hm r hr hinv
    have hm1 : m + 1 ≤ heightMN M N := hm
    have hlayer : (ggm_generate split seed M N).getD (m + 1) [] =
        ggm_layer split (find_abandon_index M N) seed (m + 1) :=
      ggm_generate_getD split seed M N (m + 1) hm1
    have hzip : (openStepAt (ggm_generate split seed M N) A (heightMN M N)
          (m + 1)).indices.zip
        (openStepAt (ggm_generate split seed M N) A (heightMN M N) (m + 1)).values =
        (openStepAt (ggm_generate split seed M N) A (heightMN M N)
          (m + 1)).indices.map (fun i => (i,
            (ggm_layer split (find_abandon_index M N) seed (m + 1)).getD i default)) := by
      rw [openStepAt_values, hlayer, zip_self_map]
    have hbound : ∀ i ∈ (openStepAt (ggm_generate split seed M N) A
        (heightMN M N) (m + 1)).indices,
        i < layer_size (find_abandon_index M N) (m + 1) := by
      intro i hi
      have := (mem_openStepAt_indices.mp hi).2.2
      rw [hlayer, ggm_layer_length] at this
      exact this
    obtain ⟨r1, hrun1, hlen1, hprop1⟩ := verify_pairs_spec split seed hM hN hm1
      (openStepAt (ggm_generate split seed M N) A (heightMN M N) (m + 1)).indices
      hbound r hr
    have hinv1 : ∀ j, j < M * N →
        ((∃ ℓ, m < ℓ ∧ ℓ ≤ heightMN M N ∧ j / 2 ^ (heightMN M N - ℓ) ∈
            (openStepAt (ggm_generate split seed M N) A (heightMN M N) ℓ).indices) →
          r1.getD j none = some ((ggm_layer split (find_abandon_index M N) seed
            (heightMN M N)).getD j default)) ∧
        (¬(∃ ℓ, m < ℓ ∧ ℓ ≤ heightMN M N ∧ j / 2 ^ (heightMN M N - ℓ) ∈
            (openStepAt (ggm_generate split seed M N) A (heightMN M N) ℓ).indices) →
          r1.getD j none = none) := by
      intro j hj
      constructor
      · rintro ⟨ℓ, h1, h2, h3⟩
        by_cases hℓ : ℓ = m + 1
        · subst hℓ
          exact (hprop1 j hj).1 h3
        · by_cases hmem : j / 2 ^ (heightMN M N - (m + 1)) ∈
              (openStepAt (ggm_generate split seed M N) A (heightMN M N)
                (m + 1)).indices
          · exact (hprop1 j hj).1 hmem
          · rw [(hprop1 j hj).2 hmem]
            exact (hinv j hj).1 ⟨ℓ, by omega, h2, h3⟩
      · intro hno
        have hmem : j / 2 ^ (heightMN M N - (m + 1)) ∉
            (openStepAt (ggm_generate split seed M N) A (heightMN M N)
              (m + 1)).indices := by
          intro h
          exact hno ⟨m + 1, by omega, hm1, h⟩
        rw [(hprop1 j hj).2 hmem]
        apply (hinv j hj).2
        rintro ⟨ℓ, h1, h2, h3⟩
        exact hno ⟨ℓ, by omega, h2, h3⟩
    obtain ⟨rf, hrunf, hlenf, hpropf⟩ := ih (by omega) r1 hlen1 hinv1
    refine ⟨rf, ?_, hlenf, hpropf⟩
    rw [List.range_succ_eq_map, List.map_cons, List.map_map]
    rw [verify_steps_cons split _ _ _ _ _ r r1 (by
      show verify_pairs split (layer_sizes_from_MN M N) (heightMN M N) (M * N)
        (openStepAt (ggm_generate split seed M N) A (heightMN M N)
          (m + 1 - 0)).layer _ r = _
      rw [openStepAt_layer]
      rw [show m + 1 - 0 = m + 1 from rfl] at *
      rw [hzip]
      exact hrun1)]
    have hfun : ((fun k => openStepAt (ggm_generate split seed M N) A
        (heightMN M N) (m + 1 - k)) ∘ Nat.succ) =
        (fun k => openStepAt (ggm_generate split seed M N) A (heightMN M N)
          (m - k)) := by
      funext k
      simp only [Function.comp_apply, Nat.succ_sub_succ]
    rw [hfun]
    exact hrunf

/-- C1 (amended): round-trip for every seed, `M, N ≥ 1`, and every NONEMPTY
challenge set `A` of leaf indices in `0..M*N-1`: `ggm_verify` of
`ggm_open(ggm_generate(seed,M,N), A)` succeeds and returns an array that at
every leaf index `i ∉ A` holds the value stored at layer `H`, index `i` of the
generated tree, while every index `i ∈ A` remains unset. -/
theorem ggm_roundtrip {α : Type} [Inhabited α] (split : α → α × α) (seed : α)
    {M N : Nat} (hM : 1 ≤ M) (hN : 1 ≤ N) (A : List Nat)
    (hA : ∀ a ∈ A, a < M * N) (hne : A ≠ []) :
    ∃ r, ggm_verify split (ggm_open (ggm_generate split seed M N) A) M N =
        .ok r ∧
      r.length = M * N ∧
      ∀ j, j < M * N →
        (j ∈ A → r.getD j none = none) ∧
        (j ∉ A → r.getD j none =
          some (((ggm_generate split seed M N).getD (heightMN M N) []).getD
            j default)) := by
  have hinv0 : ∀ j, j < M * N →
      ((∃ ℓ, heightMN M N < ℓ ∧ ℓ ≤ heightMN M N ∧
          j / 2 ^ (heightMN M N - ℓ) ∈
            (openStepAt (ggm_generate split seed M N) A (heightMN M N) ℓ).indices) →
        (List.replicate (M * N) (none : Option α)).getD j none =
          some ((ggm_layer split (find_abandon_index M N) seed
            (heightMN M N)).getD j default)) ∧
      (¬(∃ ℓ, heightMN M N < ℓ ∧ ℓ ≤ heightMN M N ∧
          j / 2 ^ (heightMN M N - ℓ) ∈
            (openStepAt (ggm_generate split seed M N) A (heightMN M N) ℓ).indices) →
        (List.replicate (M * N) (none : Option α)).getD j none = none) := by
    intro j _
    constructor
    · rintro ⟨ℓ, h1, h2, _⟩
      omega
    · intro _
      exact replicate_getD_none _ _
  obtain ⟨rf, hrun, hlen, hfin⟩ := verify_steps_spec split seed hM hN A
    (heightMN M N) (Nat.le_refl _) (List.replicate (M * N) none)
    (List.length_replicate _ _) hinv0
  refine ⟨rf, ?_, hlen, ?_⟩
  · simp only [ggm_verify]
    rw [layer_sizes_getLastD, layer_size_height hM hN,
      show (layer_sizes_from_MN M N).length - 1 = heightMN M N from by
        rw [layer_sizes_length]
        omega,
      ggm_open_eq_of_ne_nil _ A hne,
      show (ggm_generate split seed M N).length - 1 = heightMN M N from by
        rw [ggm_generate_length]
        omega]
    exact hrun
  · intro j hj
    constructor
    · intro hjA
      apply (hfin j hj).2
      rintro ⟨ℓ, _, _, h3⟩
      exact not_covered_of_mem_A hjA ℓ h3
    · intro hjA
      obtain ⟨ℓ, h1, h2, h3⟩ :=
        covered_of_not_mem_A split seed hM hN hA hne hj hjA
      rw [(hfin j hj).1 ⟨ℓ, h1, h2, h3⟩,
        ggm_generate_getD split seed M N (heightMN M N) (Nat.le_refl _)]

/-- Witness for C1 (amended) at `natSplit`, seed 5, `M = N = 2`, `A = [0]`. -/
theorem ggm_roundtrip_witness :
    (1 ≤ 2 ∧ 1 ≤ 2 ∧ (∀ a ∈ [0], a < 2 * 2) ∧ ([0] : List Nat) ≠ []) ∧
      (∃ r, ggm_verify natSplit (ggm_open (ggm_generate natSplit 5 2 2) [0]) 2 2 =
          .ok r ∧
        r.length = 2 * 2 ∧
        ∀ j, j < 2 * 2 →
          (j ∈ [0] → r.getD j none = none) ∧
          (j ∉ [0] → r.getD j none =
            some (((ggm_generate natSplit 5 2 2).getD (heightMN 2 2) []).getD
              j default))) :=
  ⟨⟨by omega, by omega, by decide, by decide⟩,
    ggm_roundtrip natSplit 5 (by omega) (by omega) [0] (by decide) (by decide)⟩

/-- Counterexample to C1 as stated: with the EMPTY challenge set (a valid
challenge set of leaf indices), `ggm_verify(ggm_open(tree, []), 2, 1)` leaves
every leaf unset, while the claim demands every index not in `A` (here all
indices) to equal the tree leaf (leaf 0 of the tree is 1 ≠ unset). -/
theorem ggm_roundtrip_fails_on_empty_challenge :
    ggm_verify natSplit (ggm_open (ggm_generate natSplit 0 2 1) []) 2 1 =
      Except.ok [none, none] ∧
    ((0 : Nat) ∉ ([] : List Nat)) ∧
    ((ggm_generate natSplit 0 2 1).getD (heightMN 2 1) []).getD 0 0 = 1 ∧
    (none : Option Nat) ≠ some 1 :=
  ⟨rfl, by decide, rfl, by decide⟩

/-- C10: with the empty challenge set, `ggm_open` emits `H` steps (layers
`H..1`) with empty indices and values, and `ggm_verify` of that proof returns
an array of length `M*N` in which every entry is still the unset marker. -/
theorem ggm_empty_challenge_recovers_nothing {α : Type} [Inhabited α]
    (split : α → α × α) (seed : α) {M N : Nat} (hM : 1 ≤ M) (hN : 1 ≤ N)
    (hH : 1 ≤ heightMN M N) :
    (ggm_open (ggm_generate split seed M N) ([] : List Nat)).length =
        heightMN M N ∧
    (∀ s ∈ ggm_open (ggm_generate split seed M N) ([] : List Nat),
      s.indices = [] ∧ s.values = []) ∧
    (∀ k, k < heightMN M N →
      ((ggm_open (ggm_generate split seed M N) ([] : List Nat)).getD k
        ⟨0, [], []⟩).layer = heightMN M N - k) ∧
    ggm_verify split (ggm_open (ggm_generate split seed M N) ([] : List Nat))
        M N = .ok (List.replicate (M * N) none) := by
  have hlen1 : (ggm_generate split seed M N).length - 1 = heightMN M N := by
    rw [ggm_generate_length]
    omega
  have hopen : ggm_open (ggm_generate split seed M N) ([] : List Nat) =
      (List.range (heightMN M N)).map
        (fun k => (⟨heightMN M N - k, [], []⟩ : Step α)) := by
    rw [ggm_open]
    show ggm_open_loop (ggm_generate split seed M N)
      ((ggm_generate split seed M N).length - 1) [] = _
    rw [hlen1]
    exact ggm_open_loop_empty _ _
  refine ⟨?_, ?_, ?_, ?_⟩
  · rw [hopen, List.length_map, List.length_range]
  · intro s hs
    rw [hopen] at hs
    rcases List.mem_map.mp hs with ⟨k, _, rfl⟩
    exact ⟨rfl, rfl⟩
  · intro k hk
    rw [hopen, map_range_getD _ _ _ _ hk]
  · simp only [ggm_verify]
    rw [layer_sizes_getLastD, layer_size_height hM hN, hopen]
    apply verify_steps_empty_steps
    intro s hs
    rcases List.mem_map.mp hs with ⟨k, _, rfl⟩
    rfl

/-- Witness for C10 at `natSplit`, seed 3, `M = N = 2`. -/
theorem ggm_empty_challenge_recovers_nothing_witness :
    (1 ≤ 2 ∧ 1 ≤ 2 ∧ 1 ≤ heightMN 2 2) ∧
      ((ggm_open (ggm_generate natSplit 3 2 2) ([] : List Nat)).length =
          heightMN 2 2 ∧
        (∀ s ∈ ggm_open (ggm_generate natSplit 3 2 2) ([] : List Nat),
          s.indices = [] ∧ s.values = []) ∧
        (∀ k, k < heightMN 2 2 →
          ((ggm_open (ggm_generate natSplit 3 2 2) ([] : List Nat)).getD k
            ⟨0, [], []⟩).layer = heightMN 2 2 - k) ∧
        ggm_verify natSplit (ggm_open (ggm_generate natSplit 3 2 2)
            ([] : List Nat)) 2 2 = .ok (List.replicate (2 * 2) none)) :=
  ⟨⟨by omega, by omega, by decide⟩,
    ggm_empty_challenge_recovers_nothing natSplit 3 (by omega) (by omega)
      (by decide)⟩

/-- C9 (amended): for `M = N = 1` the height is 0 and the tree is `[[seed]]`;
`ggm_open` on that tree with challenge set `{0}` yields the EMPTY proof (no
steps, since the loop runs from `H = 0` down to 1), and `ggm_verify` of the
proof produced for the empty challenge set returns a single-entry array whose
entry is still unset (the leaf is NOT reproduced). -/
theorem ggm_boundary_one_one {α : Type} [Inhabited α] (split : α → α × α)
    (seed : α) :
    heightMN 1 1 = 0 ∧
    ggm_generate split seed 1 1 = [[seed]] ∧
    ggm_open (ggm_generate split seed 1 1) [0] = [] ∧
    ggm_verify split (ggm_open (ggm_generate split seed 1 1) []) 1 1 =
      .ok [none] :=
  ⟨rfl, rfl, rfl, rfl⟩

/-- Witness for C9 (amended) at `natSplit`, seed 9. -/
theorem ggm_boundary_one_one_witness :
    heightMN 1 1 = 0 ∧
    ggm_generate natSplit 9 1 1 = [[9]] ∧
    ggm_open (ggm_generate natSplit 9 1 1) [0] = [] ∧
    ggm_verify natSplit (ggm_open (ggm_generate natSplit 9 1 1) []) 1 1 =
      .ok [none] :=
  ggm_boundary_one_one natSplit 9

/-- Counterexample to C9 as stated, at the concrete seed 7: the proof for
challenge set `{0}` has zero steps, not one empty step; and `ggm_verify` of
the empty-challenge proof leaves the single leaf unset instead of reproducing
the seed. -/
theorem ggm_boundary_one_one_claim_fails :
    (ggm_open (ggm_generate natSplit 7 1 1) [0]).length = 0 ∧
    ggm_verify natSplit (ggm_open (ggm_generate natSplit 7 1 1) []) 1 1 =
      Except.ok [none] ∧
    (none : Option Nat) ≠ some 7 :=
  ⟨rfl, rfl, by decide⟩

/-- C7 (evaluating the code at the failing inputs): `ggm_verify` performs no
malformed-proof rejection.  With `M = 2, N = 1` (`H = 1`): a step whose
`indices` and `values` lengths differ is silently truncated by `zip`; a proof
with 0 ≠ H steps is accepted; and with `M = N = 2` a proof whose steps are
ordered `1, 2` instead of `2, 1` is also processed without error.  In all
three cases the function returns a recovered array instead of failing. -/
theorem ggm_verify_accepts_malformed_proofs :
    ggm_verify natSplit [⟨1, [0, 1], [5]⟩] 2 1 = Except.ok [some 5, none] ∧
    ggm_verify natSplit ([] : List (Step Nat)) 2 1 =
      Except.ok [none, none] ∧
    ggm_verify natSplit [⟨1, [1], [9]⟩, ⟨2, [1], [4]⟩] 2 2 =
      Except.ok [none, some 4, some 19, some 20] :=
  ⟨rfl, rfl, rfl⟩

/-- C8 (evaluating the code at the failing input): `ggm_verify` does not
detect conflicting writes.  Two steps write the different values 10 and 20 to
the same leaf index 0; verification succeeds and silently keeps the last
value instead of failing. -/
theorem ggm_verify_accepts_conflicting_writes :
    ggm_verify natSplit [⟨1, [0], [10]⟩, ⟨1, [0], [20]⟩] 2 1 =
      Except.ok [some 20, none] ∧
    (10 : Nat) ≠ 20 :=
  ⟨rfl, by decide⟩

end GGM
